import Mathlib

/-!
# download_docs.go: a verification development

Shallow embedding of `scripts/download_docs.go` (the documentation
synchroniser) and theorems about it.

* Go strings are byte sequences; where the source indexes a string byte by byte
  (`unescapeString`) the embedding uses `List Nat`, one element per byte.
* The remote service is an oracle (`Server`) that gives the outcome of each call from
  the calls sent before it; the functions that talk to it return the list of calls sent.
* The file system is explicit state; the functions that change it return the new state,
  also when they fail.  Paths are absolute.
* `filepath.WalkDir` recurses over a tree that its callback changes, so the embedding of
  the walk takes fuel and returns `none` when the fuel does not cover the depth.
* The library functions the source calls (`encoding/json`, `os`, `path/filepath`,
  `archive/zip`, `net/http`) are embedded as far as the source depends on them.
-/

set_option autoImplicit false

namespace DownloadDocs

/-! ## Definitions -/

deriving instance DecidableEq for Except

/-! ### `unescapeString` (source lines 381-403) -/

/-- The two error messages `unescapeString` can return. -/
inductive UnescapeError where
  /-- Go: `fmt.Errorf("invalid escape sequence")`. -/
  | invalidEscape
  /-- Go: `fmt.Errorf("unicode escapes not supported")`. -/
  | unicodeNotSupported
  deriving DecidableEq, Repr

/-- The byte of the backslash character. -/
def backslash : Nat := 92

/-- The byte of the letter `u`. -/
def letterU : Nat := 117

/-- The bytes of the `case` list on source line 390: `"`, `\`, `/`, `b`, `f`, `n`, `r`, `t`. -/
def simpleEscapes : List Nat := [34, 92, 47, 98, 102, 110, 114, 116]

/-- The `for` loop of `unescapeString`: the first argument is the part of `s` from index `i` on,
the second is the buffer `out`. -/
def unescapeLoop : List Nat → List Nat → Except UnescapeError (List Nat)
  | [], out => .ok out
  | b :: rest, out =>
    if b = backslash then
      match rest with
      | [] => .error .invalidEscape
      | c :: rest' =>
        if c ∈ simpleEscapes then unescapeLoop rest' (out ++ [backslash, c])
        else if c = letterU then .error .unicodeNotSupported
        else .error .invalidEscape
    else unescapeLoop rest (out ++ [b])

/-- Go: `func unescapeString(s string) (string, error)`. -/
def unescapeString (s : List Nat) : Except UnescapeError (List Nat) :=
  unescapeLoop s []

/-- The well-escaped strings: read left to right, every backslash that starts an escape
is followed by one of the eight characters of `simpleEscapes`. -/
inductive WellEscaped : List Nat → Prop where
  | done : WellEscaped []
  | plain (b : Nat) (rest : List Nat) : b ≠ backslash → WellEscaped rest → WellEscaped (b :: rest)
  | escape (c : Nat) (rest : List Nat) : c ∈ simpleEscapes → WellEscaped rest →
      WellEscaped (backslash :: c :: rest)

/-! ### JSON values and `encoding/json` decoding (used on source lines 207, 241, 292, 330)

A response body is represented by what the syntax check of `json.Unmarshal` makes of its
bytes: either it is not one JSON value, or it is the value it denotes. -/

/-- A JSON value. -/
inductive JSON where
  | null
  | bool (b : Bool)
  | number (literal : String)
  | str (s : String)
  | arr (items : List JSON)
  | obj (members : List (String × JSON))

/-- A response body as `json.Unmarshal` sees it. -/
inductive Body where
  /-- Bytes that are not a single JSON value (`*json.SyntaxError`). -/
  | malformed
  /-- Bytes that spell the JSON value `v`. -/
  | json (v : JSON)

/-- The two kinds of error `json.Unmarshal` returns. -/
inductive JSONError where
  | syntaxError
  | typeError
  deriving DecidableEq, Repr

/-- Go: `type APIResponse struct` (source lines 31-37). -/
structure APIResponse where
  ID : String
  Name : String
  Description : String
  FileIDs : List String
  Message : String
  deriving DecidableEq, Repr

/-- The zero value of `APIResponse`, what `var response APIResponse` declares. -/
def APIResponse.zero : APIResponse := ⟨"", "", "", [], ""⟩

/-- Simple case folding of one character, as far as it can reach a lower-case ASCII letter:
the upper-case ASCII letters, the Kelvin sign (to `k`) and the long s (to `s`). -/
def foldChar (c : Char) : Char :=
  if c = Char.ofNat 0x212A then 'k' else if c = Char.ofNat 0x017F then 's' else c.toLower

/-- An object key matches a struct field when it equals the field's JSON name up to case
folding; all five names of `APIResponse` are lower-case ASCII. -/
def keyMatches (key field : String) : Bool :=
  decide (key.data.map foldChar = field.data)

/-- Decoding a JSON value into a `string` field: a string is stored, `null` leaves the field
unchanged, anything else is an `UnmarshalTypeError`. -/
def decodeString (old : String) : JSON → Except JSONError String
  | .str s => .ok s
  | .null => .ok old
  | _ => .error .typeError

/-- Decoding the elements of a JSON array into the cells of a `[]string` it is stored in:
element `i` is decoded into cell `i`, which holds what was last written there (the empty
string if nothing was), so a `null` element leaves the cell as it is; cells past the array
keep their content. -/
def decodeCells : List String → List JSON → Except JSONError (List String)
  | cells, [] => .ok cells
  | [], v :: rest =>
    match decodeString "" v, decodeCells [] rest with
    | .ok s, .ok ss => .ok (s :: ss)
    | _, _ => .error .typeError
  | c :: cells, v :: rest =>
    match decodeString c v, decodeCells cells rest with
    | .ok s, .ok ss => .ok (s :: ss)
    | _, _ => .error .typeError

/-- Decoding a JSON value into a `[]string` field that holds `old`, with `spare` the cells of
its backing array past its length.  A non-empty array is decoded into the cells already
there and the length set to the number of elements; the empty array gives a new empty
slice and `null` the nil slice; anything else is an `UnmarshalTypeError`.  The result is
the new slice and its spare cells. -/
def decodeStringSlice (old spare : List String) :
    JSON → Except JSONError (List String × List String)
  | .arr [] => .ok ([], [])
  | .arr (v :: items) =>
    match decodeCells (old ++ spare) (v :: items) with
    | .ok cells => .ok (cells.take (items.length + 1), cells.drop (items.length + 1))
    | .error e => .error e
  | .null => .ok ([], [])
  | _ => .error .typeError

/-- An `APIResponse` while it is being decoded: its value and the spare cells of the backing
array of `FileIDs`. -/
structure Decoding where
  value : APIResponse
  spare : List String

/-- One member of a JSON object decoded into an `APIResponse`; unknown keys are ignored. -/
def decodeMember (d : Decoding) (key : String) (v : JSON) : Except JSONError Decoding :=
  if keyMatches key "id" then
    (decodeString d.value.ID v).map (fun s => { d with value := { d.value with ID := s } })
  else if keyMatches key "name" then
    (decodeString d.value.Name v).map (fun s => { d with value := { d.value with Name := s } })
  else if keyMatches key "description" then
    (decodeString d.value.Description v).map
      (fun s => { d with value := { d.value with Description := s } })
  else if keyMatches key "file_ids" then
    (decodeStringSlice d.value.FileIDs d.spare v).map
      (fun ids => { value := { d.value with FileIDs := ids.1 }, spare := ids.2 })
  else if keyMatches key "message" then
    (decodeString d.value.Message v).map
      (fun s => { d with value := { d.value with Message := s } })
  else .ok d

/-- The members of a JSON object decoded in order, each into what the members before it
left.  A type error makes the whole call fail (the source never reads the value then). -/
def decodeMembers : Decoding → List (String × JSON) → Except JSONError Decoding
  | d, [] => .ok d
  | d, (k, v) :: rest =>
    match decodeMember d k v with
    | .ok d' => decodeMembers d' rest
    | .error e => .error e

/-- Decoding a JSON value into a newly declared `APIResponse` that holds `r`. -/
def decodeAPIResponse (r : APIResponse) : JSON → Except JSONError APIResponse
  | .obj members => (decodeMembers ⟨r, []⟩ members).map (fun d => d.value)
  | .null => .ok r
  | _ => .error .typeError

/-- Go: `var response APIResponse; json.Unmarshal(body, &response)`. -/
def unmarshalAPIResponse : Body → Except JSONError APIResponse
  | .malformed => .error .syntaxError
  | .json v => decodeAPIResponse APIResponse.zero v

/-- The elements of a JSON array decoded into a `[]APIResponse`. -/
def decodeAPIResponses : List JSON → Except JSONError (List APIResponse)
  | [] => .ok []
  | v :: rest =>
    match decodeAPIResponse APIResponse.zero v, decodeAPIResponses rest with
    | .ok r, .ok rs => .ok (r :: rs)
    | .error e, _ => .error e
    | _, .error e => .error e

/-- Go: `var collections []APIResponse; json.Unmarshal(collectionsData, &collections)`. -/
def unmarshalCollections : Body → Except JSONError (List APIResponse)
  | .malformed => .error .syntaxError
  | .json (.arr items) => decodeAPIResponses items
  | .json .null => .ok []
  | .json _ => .error .typeError

/-! ### The remote service and `apiRequest` (source lines 39-59) -/

/-- Go: `const knowledgeName`. -/
def knowledgeName : String := "OpenWebUI Documentation"

/-- Go: `const knowledgeDesc`. -/
def knowledgeDesc : String := "Documentation for Open WebUI"

/-- What a request carries as its body. -/
inductive Payload where
  /-- Go: `nil` data. -/
  | empty
  /-- The bytes `json.Marshal` produced for the value `v`. -/
  | json (v : JSON)
  /-- A multipart form with one part `file`: the file name and the file's bytes. -/
  | multipart (filename : String) (content : List Nat)

/-- One call to the service: method, endpoint below `apiURL`, body. -/
structure Call where
  method : String
  endpoint : String
  payload : Payload

/-- What happens to one call. -/
inductive Outcome where
  /-- Go: `http.NewRequest` returns an error (the URL does not parse): nothing is sent. -/
  | requestError
  /-- Go: `client.Do` returns an error. -/
  | sendError
  /-- The service answers with `status`; `body` is `none` when `io.ReadAll` of the body
  fails. -/
  | response (status : Nat) (body : Option Body)

/-- The service as the program sees it: the outcome of a call, given the calls sent before
it (oldest first). -/
abbrev Server := List Call → Call → Outcome

/-- The errors of the functions that talk to the service. -/
inductive ApiError where
  /-- Errors of `apiRequest` and of the request in `uploadFile`: transport. -/
  | newRequest
  | send
  | readBody
  /-- Go: `"reset knowledge failed, status code: %d"`. -/
  | resetFailed (status : Nat)
  /-- Go: `"create knowledge failed, status code: %d"`. -/
  | createFailed (status : Nat)
  /-- Go: `"upload failed, status code: %d"`. -/
  | uploadFailed (status : Nat)
  /-- Go: `"add file failed, status code: %d"`. -/
  | addFailed (status : Nat)
  /-- Go: `"unmarshaling collections: %w"`. -/
  | unmarshalCollections (e : JSONError)
  /-- Go: `"unmarshaling create knowledge response: %w"`. -/
  | unmarshalCreate (e : JSONError)
  /-- Go: `"unmarshaling upload response: %w"`. -/
  | unmarshalUpload (e : JSONError)
  /-- Go: `os.Open` of the file to upload fails. -/
  | openFile
  /-- Go: `io.Copy` from the opened file fails (the path is a directory). -/
  | readFile
  deriving DecidableEq, Repr

/-- Go: `http.StatusOK`. -/
def statusOK : Nat := 200

/-- Go: `func apiRequest(method, endpoint string, data []byte) ([]byte, int, error)`.
The second component is the list of the calls sent so far: the call is added when
`client.Do` is reached, and not when `http.NewRequest` fails, since nothing is sent then. -/
def apiRequest (srv : Server) (method endpoint : String) (data : Payload) (trace : List Call) :
    Except ApiError (Body × Nat) × List Call :=
  let call : Call := ⟨method, endpoint, data⟩
  match srv trace call with
  | .requestError => (.error .newRequest, trace)
  | .sendError => (.error .send, trace ++ [call])
  | .response _ none => (.error .readBody, trace ++ [call])
  | .response status (some body) => (.ok (body, status), trace ++ [call])

/-- The endpoint `fmt.Sprintf("knowledge/%s/reset", collectionID)`. -/
def resetEndpoint (collectionID : String) : String := "knowledge/" ++ collectionID ++ "/reset"

/-- Go: `func resetKnowledge(collectionID string) error`. -/
def resetKnowledge (srv : Server) (collectionID : String) (trace : List Call) :
    Except ApiError Unit × List Call :=
  match apiRequest srv "POST" (resetEndpoint collectionID) .empty trace with
  | (.error e, trace') => (.error e, trace')
  | (.ok (_, statusCode), trace') =>
    if statusCode ≠ statusOK then (.error (.resetFailed statusCode), trace')
    else (.ok (), trace')

/-- The value marshalled on source lines 221-226; `json.Marshal` writes the keys of a map in
sorted order. -/
def createData : JSON :=
  .obj [("data", .obj [("file_ids", .arr [])]), ("description", .str knowledgeDesc),
    ("name", .str knowledgeName)]

/-- The `for` loop of `initKnowledge` (source lines 212-219): `none` when no collection has
the configured name, else the result the function returns from inside the loop. -/
def findKnowledge (srv : Server) : List APIResponse → List Call →
    Option (Except ApiError String × List Call)
  | [], _ => none
  | collection :: rest, trace =>
    if collection.Name = knowledgeName then
      match resetKnowledge srv collection.ID trace with
      | (.error e, trace') => some (.error e, trace')
      | (.ok (), trace') => some (.ok collection.ID, trace')
    else findKnowledge srv rest trace

/-- Go: `func initKnowledge() (string, error)`. -/
def initKnowledge (srv : Server) (trace : List Call) : Except ApiError String × List Call :=
  match apiRequest srv "GET" "knowledge/list" .empty trace with
  | (.error e, trace1) => (.error e, trace1)
  | (.ok (collectionsData, _), trace1) =>
    match unmarshalCollections collectionsData with
    | .error e => (.error (.unmarshalCollections e), trace1)
    | .ok collections =>
      match findKnowledge srv collections trace1 with
      | some result => result
      | none =>
        match apiRequest srv "POST" "knowledge/create" (.json createData) trace1 with
        | (.error e, trace2) => (.error e, trace2)
        | (.ok (responseData, statusCode), trace2) =>
          if statusCode ≠ statusOK then (.error (.createFailed statusCode), trace2)
          else
            match unmarshalAPIResponse responseData with
            | .error e => (.error (.unmarshalCreate e), trace2)
            | .ok response => (.ok response.ID, trace2)

/-- The endpoint `fmt.Sprintf("knowledge/%s", knowledgeID)`. -/
def getEndpoint (knowledgeID : String) : String := "knowledge/" ++ knowledgeID

/-- The endpoint `fmt.Sprintf("knowledge/%s/file/add", knowledgeID)`. -/
def addEndpoint (knowledgeID : String) : String := "knowledge/" ++ knowledgeID ++ "/file/add"

/-- Go: `func checkFileInKnowledge(knowledgeID, fileID string) bool`. -/
def checkFileInKnowledge (srv : Server) (knowledgeID fileID : String) (trace : List Call) :
    Bool × List Call :=
  match apiRequest srv "GET" (getEndpoint knowledgeID) .empty trace with
  | (.error _, trace') => (false, trace')
  | (.ok (responseData, _), trace') =>
    match unmarshalAPIResponse responseData with
    | .error _ => (false, trace')
    | .ok response => (response.FileIDs.any (fun existingFileID => existingFileID = fileID), trace')

/-- Go: `func addFileToKnowledge(knowledgeID, fileID string) error`. -/
def addFileToKnowledge (srv : Server) (knowledgeID fileID : String) (trace : List Call) :
    Except ApiError Unit × List Call :=
  match checkFileInKnowledge srv knowledgeID fileID trace with
  | (true, trace1) => (.ok (), trace1)
  | (false, trace1) =>
    match apiRequest srv "POST" (addEndpoint knowledgeID) (.json (.obj [("file_id", .str fileID)]))
        trace1 with
    | (.error e, trace2) => (.error e, trace2)
    | (.ok (_, statusCode), trace2) =>
      if statusCode ≠ statusOK then (.error (.addFailed statusCode), trace2)
      else (.ok (), trace2)

/-! ### The file system

Paths are absolute and clean: a path is the list of its components, the root is `[]`.  The
state of the file system is an association list from paths to nodes in which a newer
binding hides an older one.  Permissions, disk space and links are not modelled: an
operation fails only for the reasons named here. -/

/-- An absolute, clean path: its components. -/
abbrev Path := List String

/-- A node: a directory, or a regular file with its bytes. -/
inductive Node where
  | dir
  | file (content : List Nat)
  deriving DecidableEq, Repr

/-- The state of the file system. -/
abbrev FS := List (Path × Node)

/-- The errors of the operating system calls. -/
inductive FsError where
  /-- ENOENT. -/
  | notExist
  /-- ENOTDIR. -/
  | notDir
  /-- EISDIR. -/
  | isDir
  /-- EEXIST. -/
  | exist
  deriving DecidableEq, Repr

/-- The newest binding of `p` in the list. -/
def lookupNode : FS → Path → Option Node
  | [], _ => none
  | (q, n) :: rest, p => if q = p then some n else lookupNode rest p

/-- Go: `os.Lstat(p)`, as far as the program uses it: the node at `p`, if any.  The root
always exists. -/
def stat (fs : FS) (p : Path) : Option Node :=
  if p = [] then some .dir else lookupNode fs p

/-- The loop of `os.MkdirAll` from the root down: below the existing directory `pre`, every
missing component is created; a regular file in the way is ENOTDIR. -/
def mkdirAllFrom : FS → Path → List String → Except FsError FS
  | fs, _, [] => .ok fs
  | fs, pre, c :: rest =>
    match stat fs (pre ++ [c]) with
    | some .dir => mkdirAllFrom fs (pre ++ [c]) rest
    | some (.file _) => .error .notDir
    | none => mkdirAllFrom ((pre ++ [c], .dir) :: fs) (pre ++ [c]) rest

/-- Go: `os.MkdirAll(p, os.ModePerm)`. -/
def mkdirAll (fs : FS) (p : Path) : Except FsError FS :=
  mkdirAllFrom fs [] p

/-- The look-up of the directory `pre ++ rest`, component by component below the existing
directory `pre`, as `open(2)` and `mkdir(2)` do it: the first component that is missing is
ENOENT, the first that is a regular file is ENOTDIR. -/
def resolveDir : FS → Path → List String → Except FsError Unit
  | _, _, [] => .ok ()
  | fs, pre, c :: rest =>
    match stat fs (pre ++ [c]) with
    | some .dir => resolveDir fs (pre ++ [c]) rest
    | some (.file _) => .error .notDir
    | none => .error .notExist

/-- Go: `os.OpenFile(p, os.O_WRONLY|os.O_CREATE|os.O_TRUNC, mode)` and `os.Create(p)`:
every directory on the way to `p` must exist and `p` must not be a directory; the file is
created or truncated. -/
def createTrunc (fs : FS) (p : Path) : Except FsError FS :=
  match resolveDir fs [] p.dropLast with
  | .error e => .error e
  | .ok () =>
    match stat fs p with
    | some .dir => .error .isDir
    | _ => .ok ((p, .file []) :: fs)

/-- Go: `os.Mkdir(p, 0700)` as `os.MkdirTemp` uses it. -/
def mkdir (fs : FS) (p : Path) : Except FsError FS :=
  match resolveDir fs [] p.dropLast with
  | .error e => .error e
  | .ok () =>
    match stat fs p with
    | some _ => .error .exist
    | none => .ok ((p, .dir) :: fs)

/-- The name of `q` inside the directory `p`, when `q` is a direct child of `p`. -/
def childName (p q : Path) : Option String :=
  if p.isPrefixOf q then
    match q.drop p.length with
    | [n] => some n
    | _ => none
  else none

/-- Lexicographic order on lists of numbers. -/
def lexLt : List Nat → List Nat → Bool
  | _, [] => false
  | [], _ :: _ => true
  | a :: as, b :: bs => a < b || (a = b && lexLt as bs)

/-- The order in which `os.ReadDir` sorts file names: byte order of the UTF-8 strings, which
is the lexicographic order of their code points. -/
def nameLt (a b : String) : Bool :=
  lexLt (a.data.map Char.toNat) (b.data.map Char.toNat)

/-- Go: `os.ReadDir(p)`: the entries of the directory `p` sorted by file name, each with
whether it is a directory. -/
def readDir (fs : FS) (p : Path) : List (String × Bool) :=
  ((fs.filterMap (fun e => childName p e.1)).dedup.insertionSort (fun a b => nameLt a b = true)).filterMap
    (fun n => match stat fs (p ++ [n]) with
      | some .dir => some (n, true)
      | some (.file _) => some (n, false)
      | none => none)

/-- Go: `os.RemoveAll(p)`: `p` and everything below it is gone. -/
def removeAll (fs : FS) (p : Path) : FS :=
  fs.filter (fun e => !p.isPrefixOf e.1)

/-! ### Paths as strings: `filepath.Join`, `filepath.Rel`, `strings.HasSuffix` -/

/-- The pieces of a name between slashes; the second argument holds the current piece in
reverse. -/
def splitSlash : List Char → List Char → List String
  | [], cur => [String.mk cur.reverse]
  | c :: cs, cur =>
    if c = '/' then String.mk cur.reverse :: splitSlash cs [] else splitSlash cs (c :: cur)

/-- One step of `filepath.Clean` on an absolute path: empty pieces and `.` are dropped, `..`
removes the last component (and stays at the root). -/
def cleanStep (p : Path) (piece : String) : Path :=
  if piece = "" ∨ piece = "." then p
  else if piece = ".." then p.dropLast
  else p ++ [piece]

/-- Go: `filepath.Join(base, rel)` for a relative path given by its pieces. -/
def joinPieces (base : Path) (pieces : List String) : Path :=
  pieces.foldl cleanStep base

/-- Go: `filepath.Join(base, name)`. -/
def join (base : Path) (name : String) : Path :=
  joinPieces base (splitSlash name.data [])

/-- Go: `filepath.Rel(base, targ)` for two absolute clean paths, as the pieces of the result:
the common prefix is removed and every component left of `base` becomes `..`. -/
def rel : Path → Path → List String
  | b :: bs, t :: ts =>
    if b = t then rel bs ts else List.replicate (bs.length + 1) ".." ++ t :: ts
  | [], [] => ["."]
  | [], t :: ts => t :: ts
  | _ :: bs, [] => List.replicate (bs.length + 1) ".."

/-- Go: `filepath.Dir(p)`. -/
def parentDir (p : Path) : Path := p.dropLast

/-- The string of a path. -/
def renderPath : Path → List Char
  | [] => ['/']
  | c :: rest => (c :: rest).flatMap (fun piece => '/' :: piece.data)

/-- Go: `strings.HasSuffix(path, suffix)`. -/
def hasSuffix (p : Path) (suffix : String) : Bool :=
  suffix.data.isSuffixOf (renderPath p)

/-- The test of source lines 95, 128 and 434: the path ends in ".md" or ".mdx". -/
def isMarkdown (p : Path) : Bool :=
  hasSuffix p ".md" || hasSuffix p ".mdx"

/-! ### `copyMarkdownFiles` (source lines 61-150) -/

/-- What reading one archive entry gives: its bytes, or a failure of `f.Open()`, or a
failure of `io.Copy` after some bytes were written. -/
inductive ZipData where
  | content (bytes : List Nat)
  | openFails
  | copyFails (written : List Nat)

/-- One entry of `r.File`: its name, `f.FileInfo().IsDir()`, and its data. -/
structure ZipEntry where
  name : String
  isDir : Bool
  data : ZipData

/-- The errors `copyMarkdownFiles` returns, one per `fmt.Errorf` of the source. -/
inductive CopyError where
  | creatingTempDir
  | downloading
  | openingZip
  | creatingDirectory (fpath : Path) (e : FsError)
  | creatingFile (fpath : Path) (e : FsError)
  | openingFileInZip
  | copyingFileContent
  | creatingDocsContentDir (e : FsError)
  | walking (e : FsError)
  deriving DecidableEq, Repr

/-- The extraction loop, source lines 81-116: `i` is the loop index, `extractedDir` the
variable of that name (`none` is the empty string it starts with). -/
def extractLoop (tempDir : Path) :
    Nat → List ZipEntry → Option Path → FS → Except CopyError (Option Path) × FS
  | _, [], extractedDir, fs => (.ok extractedDir, fs)
  | i, f :: rest, extractedDir, fs =>
    if i = 0 then extractLoop tempDir (i + 1) rest (some (join tempDir f.name)) fs
    else
      let fpath := join tempDir f.name
      if f.isDir then
        match mkdirAll fs fpath with
        | .error e => (.error (.creatingDirectory fpath e), fs)
        | .ok fs1 => extractLoop tempDir (i + 1) rest extractedDir fs1
      else if !hasSuffix fpath ".md" && !hasSuffix fpath ".mdx" then
        extractLoop tempDir (i + 1) rest extractedDir fs
      else
        match createTrunc fs fpath with
        | .error e => (.error (.creatingFile fpath e), fs)
        | .ok fs1 =>
          match f.data with
          | .openFails => (.error .openingFileInZip, fs1)
          | .copyFails written => (.error .copyingFileContent, (fpath, .file written) :: fs1)
          | .content bytes => extractLoop tempDir (i + 1) rest extractedDir ((fpath, .file bytes) :: fs1)

/-- Go: `func copyFile(src, dest string) error`.  The source is read after the destination
was created, as `io.Copy` does. -/
def copyFile (src dest : Path) (fs : FS) : Except FsError Unit × FS :=
  match stat fs src with
  | none => (.error .notExist, fs)
  | some _ =>
    match createTrunc fs dest with
    | .error e => (.error e, fs)
    | .ok fs1 =>
      match stat fs1 src with
      | some (.file bytes) => (.ok (), (dest, .file bytes) :: fs1)
      | some .dir => (.error .isDir, fs1)
      | none => (.error .notExist, fs1)

/-- Go: `walkDir` of `path/filepath`, with the callback `fn` and `fuel` bounding the depth.
`view` gives the file system as it is in state `s`.  The callback is called on the entry,
and if the entry is a directory its entries, read after the callback, are walked in order;
the first error ends the walk. -/
def walkDir {σ : Type} (view : σ → FS) (fn : Path → Bool → σ → Except FsError Unit × σ) :
    Nat → Path → Bool → σ → Option (Except FsError Unit × σ)
  | 0, _, _, _ => none
  | fuel + 1, path, isDir, s =>
    match fn path isDir s with
    | (.error e, s1) => some (.error e, s1)
    | (.ok (), s1) =>
      if isDir then
        (readDir (view s1) path).foldl (fun acc d1 =>
          match acc with
          | some (.ok (), s2) => walkDir view fn fuel (path ++ [d1.1]) d1.2 s2
          | other => other) (some (.ok (), s1))
      else some (.ok (), s1)

/-- Go: `filepath.WalkDir(root, fn)`.  When `os.Lstat(root)` fails the callback is called with
that error, and both callbacks of the source return it at once (lines 124-126, 431-433). -/
def walkDirRoot {σ : Type} (view : σ → FS) (fn : Path → Bool → σ → Except FsError Unit × σ)
    (fuel : Nat) (root : Path) (s : σ) : Option (Except FsError Unit × σ) :=
  match stat (view s) root with
  | none => some (.error .notExist, s)
  | some .dir => walkDir view fn fuel root true s
  | some (.file _) => walkDir view fn fuel root false s

/-- The callback of source lines 123-143 for `err == nil`. -/
def copyVisit (extractedDir contentDir : Path) (path : Path) (isDir : Bool) (fs : FS) :
    Except FsError Unit × FS :=
  if !isDir && (hasSuffix path ".md" || hasSuffix path ".mdx") then
    let relPath := rel extractedDir path
    let destPath := joinPieces contentDir relPath
    match mkdirAll fs (parentDir destPath) with
    | .error e => (.error e, fs)
    | .ok fs1 => copyFile path destPath fs1
  else (.ok (), fs)

/-- Source lines 80-149 of `copyMarkdownFiles`: the extraction loop, the creation of
`docs_content` and the walk that copies the files, before the deferred clean-up.
The result is `none` only when `fuel` does not cover the depth of the walk. -/
def copyMarkdownBody (fuel : Nat) (docsDir tempDir : Path) (files : List ZipEntry) (fs : FS) :
    Option (Except CopyError Path × FS) :=
  match extractLoop tempDir 0 files none fs with
  | (.error e, fs1) => some (.error e, fs1)
  | (.ok extractedDir, fs1) =>
    let contentDir := join docsDir "docs_content"
    match mkdirAll fs1 contentDir with
    | .error e => some (.error (.creatingDocsContentDir e), fs1)
    | .ok fs2 =>
      match extractedDir with
      | none => some (.error (.walking .notExist), fs2)
      | some root =>
        match walkDirRoot id (copyVisit root contentDir) fuel root fs2 with
        | none => none
        | some (.error e, fs3) => some (.error (.walking e), fs3)
        | some (.ok (), fs3) => some (.ok contentDir, fs3)

/-- What the environment supplies to one call of `copyMarkdownFiles`: the directory
`os.MkdirTemp` makes, the bytes `downloadFile` stores, the entries `zip.OpenReader` finds
(`none`: the step fails). -/
structure Fetch where
  tempDir : Option Path
  download : Option (List Nat)
  archive : Option (List ZipEntry)

/-- Go: `func downloadFile(filepath, url string) error`.  `fetched` is what `http.Get` and the
reading of the response body give (`none`: one of them fails); the result is `none` when
the function returns an error. -/
def downloadFile (fetched : Option (List Nat)) (filepath : Path) (fs : FS) : Option FS :=
  match fetched with
  | none => none
  | some bytes =>
    match createTrunc fs filepath with
    | .error _ => none
    | .ok fs1 => some ((filepath, .file bytes) :: fs1)

/-- Go: `func copyMarkdownFiles(docsDir, zipURL string) (string, error)`; the deferred
`os.RemoveAll(tempDir)` runs on every return after the directory was made. -/
def copyMarkdownFiles (fuel : Nat) (docsDir : Path) (env : Fetch) (fs : FS) :
    Option (Except CopyError Path × FS) :=
  match env.tempDir with
  | none => some (.error .creatingTempDir, fs)
  | some tempDir =>
    match mkdir fs tempDir with
    | .error _ => some (.error .creatingTempDir, fs)
    | .ok fs1 =>
      match downloadFile env.download (join tempDir "docs.zip") fs1 with
      | none => some (.error .downloading, removeAll fs1 tempDir)
      | some fs2 =>
        match env.archive with
        | none => some (.error .openingZip, removeAll fs2 tempDir)
        | some files =>
          match copyMarkdownBody fuel docsDir tempDir files fs2 with
          | none => none
          | some (result, fs3) => some (result, removeAll fs3 tempDir)

/-! ### `uploadFile` and `main` (source lines 249-298, 405-469) -/

/-- Go: `func uploadFile(filepath string) (string, error)`. -/
def uploadFile (srv : Server) (fs : FS) (filepath : Path) (trace : List Call) :
    Except ApiError String × List Call :=
  match stat fs filepath with
  | none => (.error .openFile, trace)
  | some .dir => (.error .readFile, trace)
  | some (.file bytes) =>
    let call : Call := ⟨"POST", "files/", .multipart (String.mk (renderPath filepath)) bytes⟩
    match srv trace call with
    | .requestError => (.error .newRequest, trace)
    | .sendError => (.error .send, trace ++ [call])
    | .response status body =>
      if status ≠ statusOK then (.error (.uploadFailed status), trace ++ [call])
      else
        match body with
        | none => (.error .readBody, trace ++ [call])
        | some respBody =>
          match unmarshalAPIResponse respBody with
          | .error e => (.error (.unmarshalUpload e), trace ++ [call])
          | .ok response => (.ok response.ID, trace ++ [call])

/-- The callback of source lines 430-438 for `err == nil`; the state is `markdownFiles`. -/
def collectVisit (path : Path) (isDir : Bool) (markdownFiles : List Path) :
    Except FsError Unit × List Path :=
  if !isDir && (hasSuffix path ".md" || hasSuffix path ".mdx") then
    (.ok (), markdownFiles ++ [path])
  else (.ok (), markdownFiles)

/-- Source lines 429-438: the walk of `docs_content` that fills `markdownFiles`. -/
def listMarkdownFiles (fuel : Nat) (fs : FS) (docsContentDir : Path) :
    Option (Except FsError (List Path)) :=
  match walkDirRoot (fun _ => fs) collectVisit fuel docsContentDir [] with
  | none => none
  | some (.error e, _) => some (.error e)
  | some (.ok (), markdownFiles) => some (.ok markdownFiles)

/-- The two counters of `main`. -/
structure Tally where
  successfulUploads : Nat
  failedUploads : Nat
  deriving DecidableEq, Repr

/-- How the loop of `main` ends for one file: which of its three log lines it prints. -/
inductive FileResult where
  /-- Go: `"Failed to upload: %s, error: %v"`. -/
  | failedToUpload (e : ApiError)
  /-- Go: `"Failed to add to knowledge base: %s, error: %v"`. -/
  | failedToAdd (e : ApiError)
  /-- Go: `"Successfully processed: %s"`. -/
  | processed
  deriving DecidableEq, Repr

/-- The upload loop of `main`, source lines 448-464, from the counters `tally` on. -/
def uploadLoop (srv : Server) (fs : FS) (knowledgeID : String) :
    List Path → Tally → List Call → Tally × List Call
  | [], tally, trace => (tally, trace)
  | file :: rest, tally, trace =>
    match uploadFile srv fs file trace with
    | (.error _, trace1) =>
      uploadLoop srv fs knowledgeID rest { tally with failedUploads := tally.failedUploads + 1 } trace1
    | (.ok fileID, trace1) =>
      match addFileToKnowledge srv knowledgeID fileID trace1 with
      | (.error _, trace2) =>
        uploadLoop srv fs knowledgeID rest { tally with failedUploads := tally.failedUploads + 1 }
          trace2
      | (.ok (), trace2) =>
        uploadLoop srv fs knowledgeID rest
          { tally with successfulUploads := tally.successfulUploads + 1 } trace2

/-- What `uploadFile` and `addFileToKnowledge` return for one file, with the calls sent. -/
def processFile (srv : Server) (fs : FS) (knowledgeID : String) (file : Path) (trace : List Call) :
    FileResult × List Call :=
  match uploadFile srv fs file trace with
  | (.error e, trace1) => (.failedToUpload e, trace1)
  | (.ok fileID, trace1) =>
    match addFileToKnowledge srv knowledgeID fileID trace1 with
    | (.error e, trace2) => (.failedToAdd e, trace2)
    | (.ok (), trace2) => (.processed, trace2)

/-- The outcome of every file of the run, in order: each file is processed in the state the
files before it left. -/
def fileResults (srv : Server) (fs : FS) (knowledgeID : String) :
    List Path → List Call → List FileResult
  | [], _ => []
  | file :: rest, trace =>
    (processFile srv fs knowledgeID file trace).1 ::
      fileResults srv fs knowledgeID rest (processFile srv fs knowledgeID file trace).2

/-- The ways `main` ends in `log.Fatalf`. -/
inductive Fatal where
  | initializingKnowledge (e : ApiError)
  | gettingWorkingDirectory
  | copyingMarkdownFiles (e : CopyError)
  | walkingDocsContent (e : FsError)
  deriving DecidableEq, Repr

/-- What the environment supplies to one run of `main`. -/
structure Run where
  srv : Server
  cwd : Option Path
  fetch : Fetch

/-- Go: `func main()`.  The result is the tally printed at the end, or the fatal error, with
the calls sent and the file system left behind. -/
def main (fuel : Nat) (env : Run) (fs : FS) : Option (Except Fatal Tally × List Call × FS) :=
  match initKnowledge env.srv [] with
  | (.error e, trace) => some (.error (.initializingKnowledge e), trace, fs)
  | (.ok knowledgeID, trace) =>
    match env.cwd with
    | none => some (.error .gettingWorkingDirectory, trace, fs)
    | some docsDir =>
      match copyMarkdownFiles fuel docsDir env.fetch fs with
      | none => none
      | some (.error e, fs1) => some (.error (.copyingMarkdownFiles e), trace, fs1)
      | some (.ok docsContentDir, fs1) =>
        match listMarkdownFiles fuel fs1 docsContentDir with
        | none => none
        | some (.error e) => some (.error (.walkingDocsContent e), trace, fs1)
        | some (.ok markdownFiles) =>
          match uploadLoop env.srv fs1 knowledgeID markdownFiles ⟨0, 0⟩ trace with
          | (tally, trace1) => some (.ok tally, trace1, fs1)

/-! ### The calls of the program, named -/

/-- The call `GET knowledge/list` of `initKnowledge`. -/
def listCall : Call := ⟨"GET", "knowledge/list", .empty⟩

/-- The call `POST knowledge/{id}/reset` of `resetKnowledge`. -/
def resetCall (collectionID : String) : Call := ⟨"POST", resetEndpoint collectionID, .empty⟩

/-- The call `POST knowledge/create` of `initKnowledge`. -/
def createCall : Call := ⟨"POST", "knowledge/create", .json createData⟩

/-- The call `GET knowledge/{id}` of `checkFileInKnowledge`. -/
def getCall (knowledgeID : String) : Call := ⟨"GET", getEndpoint knowledgeID, .empty⟩

/-- The call `POST knowledge/{id}/file/add` of `addFileToKnowledge`. -/
def addCall (knowledgeID fileID : String) : Call :=
  ⟨"POST", addEndpoint knowledgeID, .json (.obj [("file_id", .str fileID)])⟩

/-- The call `POST files/` of `uploadFile` for the file at `filepath` holding `bytes`. -/
def uploadCall (filepath : Path) (bytes : List Nat) : Call :=
  ⟨"POST", "files/", .multipart (String.mk (renderPath filepath)) bytes⟩

/-! ### Sample environments -/

/-- A service that knows one collection `k1` with the configured name, holding the file
`f1`, and answers every other call with status 200 and the object `{"id": "new"}`. -/
def sampleServer : Server := fun _ call =>
  if call.endpoint = "knowledge/list" then
    .response 200 (some (.json (.arr [.obj [("id", .str "k1"), ("name", .str knowledgeName)]])))
  else if call.endpoint = "knowledge/k1" then
    .response 200 (some (.json (.obj [("id", .str "k1"), ("file_ids", .arr [.str "f1"])])))
  else .response 200 (some (.json (.obj [("id", .str "new")])))

/-- Whether a character is an ASCII control character (below 0x20, or 0x7f). -/
def isControl (c : Char) : Bool := c.toNat < 32 || c.toNat = 127

/-- A service in front of which `http.NewRequest` does what it does in Go for a URL that
holds an ASCII control character: `url.Parse` rejects it ("invalid control character in
URL"), so no request is built for an endpoint with one.  Every request that is built is
answered with status 200 and the empty object. -/
def controlCheckingServer : Server := fun _ call =>
  if call.endpoint.data.any isControl then .requestError
  else .response 200 (some (.json (.obj [])))

/-- A service that answers every call with status 200 and the empty object `{}`. -/
def emptyObjectServer : Server := fun _ _ => .response 200 (some (.json (.obj [])))

/-- A service on which resetting fails with status 500; it knows the collection `k1`. -/
def brokenResetServer : Server := fun _ call =>
  if call.endpoint = "knowledge/list" then
    .response 200 (some (.json (.arr [.obj [("id", .str "k1"), ("name", .str knowledgeName)]])))
  else .response 500 (some .malformed)

/-- A file system with the working directory `/work` and one file in `docs_content`. -/
def sampleFS : FS :=
  [(["work", "docs_content", "intro.md"], .file [35, 32, 72, 105]),
    (["work", "docs_content"], .dir), (["work"], .dir), (["tmp"], .dir)]

/-- Whether the loop counted the file as a success. -/
def FileResult.isProcessed : FileResult → Bool
  | .processed => true
  | _ => false

/-! ### The extraction loop, entry by entry

The body of the loop of source lines 81-116 as a function of one entry, and the loop from
the second entry on as its iteration; `extractLoop_succ` and `extractLoop_zero` show that
this is the same loop. -/

/-- The body of the loop for an entry other than the first, source lines 87-115. -/
def extractEntry (tempDir : Path) (f : ZipEntry) (fs : FS) : Except CopyError Unit × FS :=
  if f.isDir then
    match mkdirAll fs (join tempDir f.name) with
    | .error e => (.error (.creatingDirectory (join tempDir f.name) e), fs)
    | .ok fs1 => (.ok (), fs1)
  else if isMarkdown (join tempDir f.name) then
    match createTrunc fs (join tempDir f.name) with
    | .error e => (.error (.creatingFile (join tempDir f.name) e), fs)
    | .ok fs1 =>
      match f.data with
      | .openFails => (.error .openingFileInZip, fs1)
      | .copyFails written =>
        (.error .copyingFileContent, (join tempDir f.name, .file written) :: fs1)
      | .content bytes => (.ok (), (join tempDir f.name, .file bytes) :: fs1)
  else (.ok (), fs)

/-- The body of the loop on the entries in order, up to the first failure. -/
def extractEntries (tempDir : Path) : List ZipEntry → FS → Except CopyError Unit × FS
  | [], fs => (.ok (), fs)
  | f :: rest, fs =>
    match extractEntry tempDir f fs with
    | (.error e, fs1) => (.error e, fs1)
    | (.ok (), fs1) => extractEntries tempDir rest fs1

/-- The loop on a whole archive: the first entry gives `extractedDir`, the others go through
the body. -/
def extractAll (tempDir : Path) : List ZipEntry → FS → Except CopyError (Option Path) × FS
  | [], fs => (.ok none, fs)
  | first :: others, fs =>
    match extractEntries tempDir others fs with
    | (.error e, fs1) => (.error e, fs1)
    | (.ok (), fs1) => (.ok (some (join tempDir first.name)), fs1)

/-! ### Sample archives -/

/-- The temporary directory of the sample runs. -/
def sampleTempDir : Path := ["tmp", "openwebui-docs1"]

/-- The archive of the scenario in section 8 of the specification. -/
def scenarioArchive : List ZipEntry :=
  [⟨"docs-main/", true, .content []⟩, ⟨"docs-main/intro.md", false, .content [1]⟩,
    ⟨"docs-main/api/ref.mdx", false, .content [2]⟩, ⟨"docs-main/image.png", false, .content [3]⟩]

/-- The same files in an archive that, like the archives GitHub serves, has an entry for
every directory before the files in it. -/
def scenarioArchiveWithDirs : List ZipEntry :=
  [⟨"docs-main/", true, .content []⟩, ⟨"docs-main/api/", true, .content []⟩,
    ⟨"docs-main/intro.md", false, .content [1]⟩,
    ⟨"docs-main/api/ref.mdx", false, .content [2]⟩, ⟨"docs-main/image.png", false, .content [3]⟩]

/-- An archive without any documentation file. -/
def imagesArchive : List ZipEntry :=
  [⟨"docs-main/", true, .content []⟩, ⟨"docs-main/img/", true, .content []⟩,
    ⟨"docs-main/img/logo.png", false, .content [3]⟩]

/-- A file system with the working directory `/work` and the directory `/tmp`, nothing
else. -/
def freshFS : FS := [(["work"], .dir), (["tmp"], .dir)]

/-! ### Well-formed file systems and the predicates of the suffix-filter theorem -/

/-- A proper file name: not empty, not `.` and not `..`. -/
def properName (c : String) : Prop := c ≠ "" ∧ c ≠ "." ∧ c ≠ ".."

/-- Every component of the path is a proper file name. -/
def ProperPath (p : Path) : Prop := ∀ c ∈ p, properName c

/-- Every path of the file system consists of proper file names. -/
def ProperFS (fs : FS) : Prop := ∀ e ∈ fs, ProperPath e.1

/-- No regular file at or below `root` has a path ending in ".md" or ".mdx". -/
def NoMarkdownUnder (fs : FS) (root : Path) : Prop :=
  ∀ p c, root <+: p → stat fs p = some (.file c) → isMarkdown p = false

/-- Every regular file of `fs'` is in `fs` with the same bytes or has a path ending in ".md"
or ".mdx": what was written between `fs` and `fs'` are documentation files only. -/
def OnlyMarkdownWritten (fs fs' : FS) : Prop :=
  ∀ p c, stat fs' p = some (.file c) → stat fs p = some (.file c) ∨ isMarkdown p = true

/-- The length of the longest path of the file system. -/
def maxDepth : FS → Nat
  | [] => 0
  | e :: rest => max e.1.length (maxDepth rest)

/-- The invariant of the copy phase: only documentation files were written since `fs0`, the
names are proper, and `contentDir` is a directory. -/
def WalkInv (fs0 : FS) (contentDir : Path) (s : FS) : Prop :=
  OnlyMarkdownWritten fs0 s ∧ ProperFS s ∧ stat s contentDir = some .dir

/-- The file system after source lines 80-149 have run on `scenarioArchiveWithDirs` from
`freshFS`, before the temporary directory is removed. -/
def extractedFS : FS :=
  [(["work", "docs_content", "intro.md"], .file [1]),
    (["work", "docs_content", "intro.md"], .file []),
    (["work", "docs_content", "api", "ref.mdx"], .file [2]),
    (["work", "docs_content", "api", "ref.mdx"], .file []),
    (["work", "docs_content", "api"], .dir), (["work", "docs_content"], .dir),
    (["tmp", "openwebui-docs1", "docs-main", "api", "ref.mdx"], .file [2]),
    (["tmp", "openwebui-docs1", "docs-main", "api", "ref.mdx"], .file []),
    (["tmp", "openwebui-docs1", "docs-main", "intro.md"], .file [1]),
    (["tmp", "openwebui-docs1", "docs-main", "intro.md"], .file []),
    (["tmp", "openwebui-docs1", "docs-main", "api"], .dir),
    (["tmp", "openwebui-docs1", "docs-main"], .dir), (["tmp", "openwebui-docs1"], .dir),
    (["work"], .dir), (["tmp"], .dir)]

/-- Go: `strings.HasSuffix(name, ".md") || strings.HasSuffix(name, ".mdx")` on the name of
an archive entry as it stands. -/
def nameIsMarkdown (name : String) : Bool :=
  ".md".data.isSuffixOf name.data || ".mdx".data.isSuffixOf name.data

/-- What follows the last slash of a name (the whole name if it holds no slash). -/
def lastPiece (name : String) : String :=
  ((splitSlash name.data []).getLast?).getD ""

/-- An archive with a file entry whose name ends in "/.": a root entry, an entry for the
directory `d`, and the file `docs-main/d/x.md/.`. -/
def dotArchive : List ZipEntry :=
  [⟨"docs-main/", true, .content []⟩, ⟨"docs-main/d/", true, .content []⟩,
    ⟨"docs-main/d/x.md/.", false, .content [7]⟩]

/-- The file system `freshFS` with the temporary directory made in it. -/
def tempFS : FS := (["tmp", "openwebui-docs1"], .dir) :: freshFS

/-- The file system `tempFS` with the archive stored in the temporary directory. -/
def storedFS : FS :=
  (["tmp", "openwebui-docs1", "docs.zip"], .file [80, 75]) ::
    (["tmp", "openwebui-docs1", "docs.zip"], .file []) :: tempFS

/-! ## Theorems -/

/-! ### `unescapeString` -/

theorem unescapeLoop_plain (b : Nat) (rest out : List Nat) (hb : b ≠ backslash) :
    unescapeLoop (b :: rest) out = unescapeLoop rest (out ++ [b]) := by
  rw [unescapeLoop.eq_def]
  simp [hb]

theorem unescapeLoop_lone (out : List Nat) :
    unescapeLoop [backslash] out = .error .invalidEscape := by
  rw [unescapeLoop.eq_def]
  simp

theorem unescapeLoop_escape (c : Nat) (rest out : List Nat) :
    unescapeLoop (backslash :: c :: rest) out =
      if c ∈ simpleEscapes then unescapeLoop rest (out ++ [backslash, c])
      else if c = letterU then .error .unicodeNotSupported
      else .error .invalidEscape := by
  rw [unescapeLoop.eq_def]
  simp

theorem unescapeLoop_ok_of_wellEscaped {s : List Nat} (h : WellEscaped s) (q out : List Nat) :
    unescapeLoop (s ++ q) out = unescapeLoop q (out ++ s) := by
  induction h generalizing out with
  | done => simp
  | plain b rest hb _ ih =>
    simp only [List.cons_append]
    rw [unescapeLoop_plain _ _ _ hb, ih]
    simp
  | escape c rest hc _ ih =>
    simp only [List.cons_append]
    rw [unescapeLoop_escape, if_pos hc, ih]
    simp

theorem wellEscaped_of_unescapeLoop_ok :
    ∀ (n : Nat) (s out r : List Nat), s.length ≤ n → unescapeLoop s out = .ok r → WellEscaped s := by
  intro n
  induction n with
  | zero =>
    intro s out r hn _
    have : s = [] := List.length_eq_zero.mp (Nat.le_zero.mp hn)
    subst this
    exact .done
  | succ n ih =>
    intro s out r hn h
    cases s with
    | nil => exact .done
    | cons b rest =>
      by_cases hb : b = backslash
      · subst hb
        cases rest with
        | nil => simp [unescapeLoop_lone] at h
        | cons c rest' =>
          rw [unescapeLoop_escape] at h
          by_cases hc : c ∈ simpleEscapes
          · rw [if_pos hc] at h
            refine .escape c rest' hc (ih rest' _ r ?_ h)
            simp only [List.length_cons] at hn
            omega
          · rw [if_neg hc] at h
            split at h <;> simp at h
      · rw [unescapeLoop_plain _ _ _ hb] at h
        refine .plain b rest hb (ih rest _ r ?_ h)
        simp only [List.length_cons] at hn
        omega

theorem unescapeString_of_wellEscaped {s : List Nat} (h : WellEscaped s) :
    unescapeString s = .ok s := by
  have := unescapeLoop_ok_of_wellEscaped h [] []
  simpa [unescapeString, unescapeLoop] using this

/-- C10: `unescapeString` validates and never decodes.  A successful result is the input itself,
success is exactly well-escapedness, and after a well-escaped prefix a lone trailing
backslash, a `\u` escape and any other escaped character give the corresponding error. -/
theorem unescapeString_validator (s : List Nat) :
    (∀ r, unescapeString s = .ok r → r = s) ∧
    ((∃ r, unescapeString s = .ok r) ↔ WellEscaped s) ∧
    (∀ p, s = p ++ [backslash] → WellEscaped p → unescapeString s = .error .invalidEscape) ∧
    (∀ p q, s = p ++ backslash :: letterU :: q → WellEscaped p →
      unescapeString s = .error .unicodeNotSupported) ∧
    (∀ p c q, s = p ++ backslash :: c :: q → WellEscaped p → c ∉ simpleEscapes → c ≠ letterU →
      unescapeString s = .error .invalidEscape) := by
  have hiff : (∃ r, unescapeString s = .ok r) ↔ WellEscaped s := by
    constructor
    · rintro ⟨r, hr⟩
      exact wellEscaped_of_unescapeLoop_ok s.length s [] r (Nat.le_refl _) hr
    · intro h
      exact ⟨s, unescapeString_of_wellEscaped h⟩
  refine ⟨?_, hiff, ?_, ?_, ?_⟩
  · intro r hr
    have hw := hiff.mp ⟨r, hr⟩
    rw [unescapeString_of_wellEscaped hw] at hr
    cases hr
    rfl
  · intro p hs hp
    subst hs
    rw [unescapeString, unescapeLoop_ok_of_wellEscaped hp, unescapeLoop_lone]
  · intro p q hs hp
    subst hs
    rw [unescapeString, unescapeLoop_ok_of_wellEscaped hp]
    rw [unescapeLoop_escape]
    simp [simpleEscapes, letterU]
  · intro p c q hs hp hc hu
    subst hs
    rw [unescapeString, unescapeLoop_ok_of_wellEscaped hp]
    rw [unescapeLoop_escape]
    simp [hc, hu]

/-! ### The calls to the service -/

theorem apiRequest_requestError (srv : Server) (method endpoint : String) (data : Payload)
    (trace : List Call) (h : srv trace ⟨method, endpoint, data⟩ = .requestError) :
    apiRequest srv method endpoint data trace = (.error .newRequest, trace) := by
  simp only [apiRequest, h]

theorem apiRequest_response (srv : Server) (method endpoint : String) (data : Payload)
    (trace : List Call) (status : Nat) (body : Body)
    (h : srv trace ⟨method, endpoint, data⟩ = .response status (some body)) :
    apiRequest srv method endpoint data trace =
      (.ok (body, status), trace ++ [⟨method, endpoint, data⟩]) := by
  simp only [apiRequest, h]

theorem apiRequest_trace (srv : Server) (method endpoint : String) (data : Payload)
    (trace : List Call) (h : srv trace ⟨method, endpoint, data⟩ ≠ .requestError) :
    (apiRequest srv method endpoint data trace).2 = trace ++ [⟨method, endpoint, data⟩] := by
  unfold apiRequest
  dsimp only
  split
  · rename_i h1
    exact absurd h1 h
  · rfl
  · rfl
  · rfl

theorem apiRequest_ok_iff (srv : Server) (method endpoint : String) (data : Payload)
    (trace : List Call) (body : Body) (status : Nat) :
    (apiRequest srv method endpoint data trace).1 = .ok (body, status) ↔
      srv trace ⟨method, endpoint, data⟩ = .response status (some body) := by
  unfold apiRequest
  dsimp only
  split <;> rename_i h <;> simp [h]
  · constructor
    · rintro ⟨rfl, rfl⟩
      exact ⟨rfl, rfl⟩
    · rintro ⟨rfl, rfl⟩
      exact ⟨rfl, rfl⟩

theorem resetEndpoint_eq (collectionID : String) :
    resetEndpoint collectionID = "knowledge/" ++ collectionID ++ "/reset" := rfl

theorem resetKnowledge_requestError (srv : Server) (collectionID : String) (trace : List Call)
    (h : srv trace ⟨"POST", "knowledge/" ++ collectionID ++ "/reset", .empty⟩ = .requestError) :
    resetKnowledge srv collectionID trace = (.error .newRequest, trace) := by
  unfold resetKnowledge
  rw [resetEndpoint_eq, apiRequest_requestError srv _ _ _ _ h]

theorem resetKnowledge_trace (srv : Server) (collectionID : String) (trace : List Call)
    (h : srv trace ⟨"POST", "knowledge/" ++ collectionID ++ "/reset", .empty⟩ ≠ .requestError) :
    (resetKnowledge srv collectionID trace).2 =
      trace ++ [⟨"POST", "knowledge/" ++ collectionID ++ "/reset", .empty⟩] := by
  have ht := apiRequest_trace srv "POST" ("knowledge/" ++ collectionID ++ "/reset") .empty trace h
  unfold resetKnowledge
  rw [resetEndpoint_eq]
  split
  · rename_i e t heq
    rw [heq] at ht
    exact ht
  · rename_i b st t heq
    rw [heq] at ht
    split <;> exact ht

theorem resetKnowledge_ok_iff (srv : Server) (collectionID : String) (trace : List Call) :
    (resetKnowledge srv collectionID trace).1 = .ok () ↔
      ∃ body, srv trace ⟨"POST", "knowledge/" ++ collectionID ++ "/reset", .empty⟩ =
        .response 200 (some body) := by
  unfold resetKnowledge
  rw [resetEndpoint_eq]
  split
  · rename_i e t heq
    have h1 : (apiRequest srv "POST" ("knowledge/" ++ collectionID ++ "/reset") .empty trace).1 =
        .error e := by rw [heq]
    simp only [reduceCtorEq, false_iff, not_exists]
    intro body hb
    rw [(apiRequest_ok_iff srv _ _ _ trace body 200).mpr hb] at h1
    cases h1
  · rename_i b st t heq
    have h1 : (apiRequest srv "POST" ("knowledge/" ++ collectionID ++ "/reset") .empty trace).1 =
        .ok (b, st) := by rw [heq]
    have hs := (apiRequest_ok_iff srv _ _ _ trace b st).mp h1
    by_cases hst : st = statusOK
    · simp only [hst, ne_eq, not_true_eq_false, if_false, true_iff]
      rw [hst] at hs
      exact ⟨b, hs⟩
    · simp only [ne_eq, hst, not_false_eq_true, if_true, reduceCtorEq, false_iff, not_exists]
      intro body hb
      rw [hs] at hb
      simp only [Outcome.response.injEq] at hb
      exact hst hb.1

theorem except_unit_cases (r : Except ApiError Unit) :
    (∃ e, r = .error e) ↔ ¬ r = .ok () := by
  cases r with
  | error e => simp
  | ok u => simp

theorem findKnowledge_none (srv : Server) (collections : List APIResponse) (trace : List Call)
    (h : ∀ c ∈ collections, c.Name ≠ knowledgeName) :
    findKnowledge srv collections trace = none := by
  induction collections with
  | nil => rfl
  | cons c rest ih =>
    rw [findKnowledge, if_neg (h c (List.mem_cons_self _ _))]
    exact ih (fun d hd => h d (List.mem_cons_of_mem _ hd))

theorem findKnowledge_some (srv : Server) (collections : List APIResponse) (trace : List Call)
    (c : APIResponse)
    (h : collections.find? (fun d => decide (d.Name = knowledgeName)) = some c) :
    findKnowledge srv collections trace =
      some (match resetKnowledge srv c.ID trace with
        | (.error e, trace') => (.error e, trace')
        | (.ok (), trace') => (.ok c.ID, trace')) := by
  induction collections with
  | nil => simp at h
  | cons d rest ih =>
    rw [findKnowledge]
    by_cases hd : d.Name = knowledgeName
    · rw [if_pos hd]
      simp only [List.find?_cons, hd, decide_True, Option.some.injEq] at h
      subst h
      split <;> rfl
    · rw [if_neg hd]
      simp only [List.find?_cons, hd, decide_False] at h
      exact ih h

theorem initKnowledge_of_list (srv : Server) (trace : List Call) (status : Nat) (body : Body)
    (collections : List APIResponse)
    (hlist : srv trace ⟨"GET", "knowledge/list", .empty⟩ = .response status (some body))
    (hdec : unmarshalCollections body = .ok collections) :
    initKnowledge srv trace =
      match findKnowledge srv collections (trace ++ [⟨"GET", "knowledge/list", .empty⟩]) with
      | some result => result
      | none =>
        match apiRequest srv "POST" "knowledge/create" (.json createData)
            (trace ++ [⟨"GET", "knowledge/list", .empty⟩]) with
        | (.error e, trace2) => (.error e, trace2)
        | (.ok (responseData, statusCode), trace2) =>
          if statusCode ≠ statusOK then (.error (.createFailed statusCode), trace2)
          else
            match unmarshalAPIResponse responseData with
            | .error e => (.error (.unmarshalCreate e), trace2)
            | .ok response => (.ok response.ID, trace2) := by
  unfold initKnowledge
  simp only [apiRequest_response srv _ _ _ trace status body hlist, hdec]

/-- C1: collection resolution in `initKnowledge`.  When the list call returns a body that
decodes to `collections`: if a collection has the configured name and resetting the first
such collection returns status 200, the result is that collection's ID and the calls made
are the list call and one reset call for that ID (no create call); if no collection has the
name and the create call returns status 200 with a body that decodes, the result is the id of
that body and the calls made are the list call and one create call (no reset call). -/
theorem initKnowledge_resolution (srv : Server) (trace : List Call) (status : Nat) (body : Body)
    (collections : List APIResponse)
    (hlist : srv trace listCall = .response status (some body))
    (hdec : unmarshalCollections body = .ok collections) :
    (∀ c b, collections.find? (fun d => decide (d.Name = knowledgeName)) = some c →
      srv (trace ++ [listCall]) (resetCall c.ID) = .response statusOK (some b) →
      initKnowledge srv trace = (.ok c.ID, trace ++ [listCall] ++ [resetCall c.ID])) ∧
    (∀ b r, (∀ c ∈ collections, c.Name ≠ knowledgeName) →
      srv (trace ++ [listCall]) createCall = .response statusOK (some b) →
      unmarshalAPIResponse b = .ok r →
      initKnowledge srv trace = (.ok r.ID, trace ++ [listCall] ++ [createCall])) := by
  rw [initKnowledge_of_list srv trace status body collections hlist hdec]
  constructor
  · intro c b hfind hreset
    rw [findKnowledge_some srv collections _ c hfind]
    have hr : srv (trace ++ [listCall]) ⟨"POST", resetEndpoint c.ID, .empty⟩ =
        .response statusOK (some b) := hreset
    have hl : (⟨"GET", "knowledge/list", .empty⟩ : Call) = listCall := rfl
    simp [resetKnowledge, apiRequest, hr, hl, resetCall]
  · intro b r hnone hcreate hdecode
    rw [findKnowledge_none srv collections _ hnone]
    have hc : srv (trace ++ [listCall]) ⟨"POST", "knowledge/create", .json createData⟩ =
        .response statusOK (some b) := hcreate
    have hl : (⟨"GET", "knowledge/list", .empty⟩ : Call) = listCall := rfl
    simp [apiRequest, hc, hdecode, createCall, hl]

/-- Witness of C1 on `sampleServer`: the collection `k1` is found and reset. -/
theorem initKnowledge_resolution_witness :
    initKnowledge sampleServer [] = (.ok "k1", [] ++ [listCall] ++ [resetCall "k1"]) :=
  (initKnowledge_resolution sampleServer [] 200
    (.json (.arr [.obj [("id", .str "k1"), ("name", .str knowledgeName)]]))
    [⟨"k1", knowledgeName, "", [], ""⟩] rfl (by decide)).1
    ⟨"k1", knowledgeName, "", [], ""⟩ (.json (.obj [("id", .str "new")])) (by decide) rfl

/-- C9, as amended: the error contract of `resetKnowledge`.  When `http.NewRequest` accepts
the URL, exactly one call is sent, the POST to `knowledge/{id}/reset` without a body; when it
does not, no call is sent and the error is returned.  The function succeeds exactly when
that call is answered with status 200 and a body that can be read, and returns an error in
every other case.  When it fails for the collection `initKnowledge` found, `initKnowledge`
returns that error and the calls sent are the list call and the reset call, if that was
sent: no create call. -/
theorem resetKnowledge_error_contract (srv : Server) (collectionID : String) (trace : List Call) :
    (srv trace ⟨"POST", "knowledge/" ++ collectionID ++ "/reset", .empty⟩ ≠ .requestError →
      (resetKnowledge srv collectionID trace).2 =
        trace ++ [⟨"POST", "knowledge/" ++ collectionID ++ "/reset", .empty⟩]) ∧
    (srv trace ⟨"POST", "knowledge/" ++ collectionID ++ "/reset", .empty⟩ = .requestError →
      resetKnowledge srv collectionID trace = (.error .newRequest, trace)) ∧
    ((∃ e, (resetKnowledge srv collectionID trace).1 = .error e) ↔
      ¬ ∃ body, srv trace ⟨"POST", "knowledge/" ++ collectionID ++ "/reset", .empty⟩ =
        .response 200 (some body)) ∧
    (∀ status body collections c e,
      srv trace ⟨"GET", "knowledge/list", .empty⟩ = .response status (some body) →
      unmarshalCollections body = .ok collections →
      collections.find? (fun d => decide (d.Name = knowledgeName)) = some c →
      c.ID = collectionID →
      (resetKnowledge srv collectionID (trace ++ [⟨"GET", "knowledge/list", .empty⟩])).1 =
        .error e →
      (initKnowledge srv trace).1 = .error e ∧
        ((initKnowledge srv trace).2 = trace ++ [⟨"GET", "knowledge/list", .empty⟩] ∨
          (initKnowledge srv trace).2 = trace ++ [⟨"GET", "knowledge/list", .empty⟩] ++
            [⟨"POST", "knowledge/" ++ collectionID ++ "/reset", .empty⟩])) := by
  refine ⟨resetKnowledge_trace srv collectionID trace,
    resetKnowledge_requestError srv collectionID trace, ?_, ?_⟩
  · rw [except_unit_cases, resetKnowledge_ok_iff]
  · intro status body collections c e hlist hdec hfind hid herr
    rw [initKnowledge_of_list srv trace status body collections hlist hdec,
      findKnowledge_some srv collections _ c hfind, hid]
    cases hr : resetKnowledge srv collectionID (trace ++ [⟨"GET", "knowledge/list", .empty⟩]) with
    | mk r t =>
      rw [hr] at herr
      simp only at herr
      subst herr
      simp only [true_and]
      by_cases hreq : srv (trace ++ [⟨"GET", "knowledge/list", .empty⟩])
          ⟨"POST", "knowledge/" ++ collectionID ++ "/reset", .empty⟩ = .requestError
      · left
        have := resetKnowledge_requestError srv collectionID _ hreq
        rw [hr] at this
        exact (Prod.mk.inj this).2
      · right
        have := resetKnowledge_trace srv collectionID _ hreq
        rw [hr] at this
        exact this

/-- Witness of C9 as amended, on `brokenResetServer`: the reset of `k1` is sent and answered
with status 500, and `initKnowledge` returns that error. -/
theorem resetKnowledge_error_contract_witness :
    (initKnowledge brokenResetServer []).1 = .error (.resetFailed 500) ∧
      ((initKnowledge brokenResetServer []).2 = [] ++ [⟨"GET", "knowledge/list", .empty⟩] ∨
        (initKnowledge brokenResetServer []).2 = [] ++ [⟨"GET", "knowledge/list", .empty⟩] ++
          [⟨"POST", "knowledge/" ++ "k1" ++ "/reset", .empty⟩]) :=
  (resetKnowledge_error_contract brokenResetServer "k1" []).2.2.2 200
    (.json (.arr [.obj [("id", .str "k1"), ("name", .str knowledgeName)]]))
    [⟨"k1", knowledgeName, "", [], ""⟩] ⟨"k1", knowledgeName, "", [], ""⟩ (.resetFailed 500)
    rfl (by decide) (by decide) rfl (by decide)

/-- Counterexample to C9 as stated: for the collection ID `k`, newline, `1` the URL holds a
control character, `http.NewRequest` fails, and `resetKnowledge` returns that error without
any POST having been sent. -/
theorem resetKnowledge_sends_nothing :
    controlCheckingServer [] ⟨"POST", "knowledge/" ++ "k\n1" ++ "/reset", .empty⟩ =
        .requestError ∧
      (resetKnowledge controlCheckingServer "k\n1" []).1 = .error .newRequest ∧
      (resetKnowledge controlCheckingServer "k\n1" []).2.length = 0 := by
  refine ⟨rfl, by decide, by decide⟩

theorem getEndpoint_eq (knowledgeID : String) :
    getEndpoint knowledgeID = "knowledge/" ++ knowledgeID := rfl

theorem addEndpoint_eq (knowledgeID : String) :
    addEndpoint knowledgeID = "knowledge/" ++ knowledgeID ++ "/file/add" := rfl

theorem checkFileInKnowledge_trace (srv : Server) (knowledgeID fileID : String)
    (trace : List Call) :
    (srv trace ⟨"GET", "knowledge/" ++ knowledgeID, .empty⟩ ≠ .requestError →
      (checkFileInKnowledge srv knowledgeID fileID trace).2 =
        trace ++ [⟨"GET", "knowledge/" ++ knowledgeID, .empty⟩]) ∧
    (srv trace ⟨"GET", "knowledge/" ++ knowledgeID, .empty⟩ = .requestError →
      checkFileInKnowledge srv knowledgeID fileID trace = (false, trace)) := by
  constructor
  · intro h
    have ht := apiRequest_trace srv "GET" ("knowledge/" ++ knowledgeID) .empty trace h
    unfold checkFileInKnowledge
    rw [getEndpoint_eq]
    split
    · rename_i e t heq
      rw [heq] at ht
      exact ht
    · rename_i b st t heq
      rw [heq] at ht
      split <;> exact ht
  · intro h
    unfold checkFileInKnowledge
    rw [getEndpoint_eq, apiRequest_requestError srv _ _ _ _ h]

theorem checkFileInKnowledge_true_iff (srv : Server) (knowledgeID fileID : String)
    (trace : List Call) :
    (checkFileInKnowledge srv knowledgeID fileID trace).1 = true ↔
      ∃ status body r,
        srv trace ⟨"GET", "knowledge/" ++ knowledgeID, .empty⟩ = .response status (some body) ∧
        unmarshalAPIResponse body = .ok r ∧ fileID ∈ r.FileIDs := by
  unfold checkFileInKnowledge
  rw [getEndpoint_eq]
  split
  · rename_i e t heq
    have h1 : (apiRequest srv "GET" ("knowledge/" ++ knowledgeID) .empty trace).1 = .error e := by
      rw [heq]
    simp only [Bool.false_eq_true, false_iff]
    rintro ⟨status, body, r, hsrv, -, -⟩
    rw [((apiRequest_ok_iff srv "GET" ("knowledge/" ++ knowledgeID) .empty trace body status).mpr
      hsrv)] at h1
    cases h1
  · rename_i b st t heq
    have h1 : (apiRequest srv "GET" ("knowledge/" ++ knowledgeID) .empty trace).1 =
        .ok (b, st) := by
      rw [heq]
    have hsrv := (apiRequest_ok_iff srv "GET" ("knowledge/" ++ knowledgeID) .empty trace b st).mp h1
    split
    · rename_i e hdec
      simp only [Bool.false_eq_true, false_iff]
      rintro ⟨status, body, r, hsrv', hdec', -⟩
      rw [hsrv] at hsrv'
      cases hsrv'
      rw [hdec] at hdec'
      cases hdec'
    · rename_i r hdec
      constructor
      · intro hany
        refine ⟨st, b, r, hsrv, hdec, ?_⟩
        simp only [List.any_eq_true, decide_eq_true_eq] at hany
        obtain ⟨x, hx, rfl⟩ := hany
        exact hx
      · rintro ⟨status, body, r', hsrv', hdec', hmem⟩
        rw [hsrv] at hsrv'
        cases hsrv'
        rw [hdec] at hdec'
        cases hdec'
        simp only [List.any_eq_true, decide_eq_true_eq]
        exact ⟨fileID, hmem, rfl⟩

theorem addFileToKnowledge_absent (srv : Server) (knowledgeID fileID : String)
    (trace t1 : List Call) (hcheck : checkFileInKnowledge srv knowledgeID fileID trace = (false, t1)) :
    (srv t1 ⟨"POST", "knowledge/" ++ knowledgeID ++ "/file/add",
        .json (.obj [("file_id", .str fileID)])⟩ ≠ .requestError →
      (addFileToKnowledge srv knowledgeID fileID trace).2 =
        t1 ++ [⟨"POST", "knowledge/" ++ knowledgeID ++ "/file/add",
          .json (.obj [("file_id", .str fileID)])⟩]) ∧
    (srv t1 ⟨"POST", "knowledge/" ++ knowledgeID ++ "/file/add",
        .json (.obj [("file_id", .str fileID)])⟩ = .requestError →
      addFileToKnowledge srv knowledgeID fileID trace = (.error .newRequest, t1)) ∧
    ((addFileToKnowledge srv knowledgeID fileID trace).1 = .ok () ↔
      ∃ body, srv t1 ⟨"POST", "knowledge/" ++ knowledgeID ++ "/file/add",
        .json (.obj [("file_id", .str fileID)])⟩ = .response 200 (some body)) := by
  unfold addFileToKnowledge
  rw [hcheck, addEndpoint_eq]
  simp only
  refine ⟨?_, ?_, ?_⟩
  · intro h
    have ht := apiRequest_trace srv "POST" ("knowledge/" ++ knowledgeID ++ "/file/add")
      (.json (.obj [("file_id", .str fileID)])) t1 h
    split
    · rename_i e t heq
      rw [heq] at ht
      exact ht
    · rename_i b st t heq
      rw [heq] at ht
      split <;> exact ht
  · intro h
    rw [apiRequest_requestError srv _ _ _ _ h]
  · split
    · rename_i e t heq
      have h1 : (apiRequest srv "POST" ("knowledge/" ++ knowledgeID ++ "/file/add")
          (.json (.obj [("file_id", .str fileID)])) t1).1 = .error e := by rw [heq]
      simp only [reduceCtorEq, false_iff, not_exists]
      intro body hb
      rw [(apiRequest_ok_iff srv _ _ _ t1 body 200).mpr hb] at h1
      cases h1
    · rename_i b st t heq
      have h1 : (apiRequest srv "POST" ("knowledge/" ++ knowledgeID ++ "/file/add")
          (.json (.obj [("file_id", .str fileID)])) t1).1 = .ok (b, st) := by rw [heq]
      have hs := (apiRequest_ok_iff srv _ _ _ t1 b st).mp h1
      by_cases hst : st = statusOK
      · simp only [hst, ne_eq, not_true_eq_false, if_false, true_iff]
        rw [hst] at hs
        exact ⟨b, hs⟩
      · simp only [ne_eq, hst, not_false_eq_true, if_true, reduceCtorEq, false_iff, not_exists]
        intro body hb
        rw [hs] at hb
        simp only [Outcome.response.injEq] at hb
        exact hst hb.1

/-- C6, as amended: idempotent association in `addFileToKnowledge`.  If the get-collection
call `GET knowledge/{id}` returns a body that decodes to a record whose `file_ids` contain
`fileID`, the function succeeds and the get call is the only call sent.  In every other
case, with `t1` the calls sent once the membership check is over (the get call is among them
unless `http.NewRequest` rejected it): when `http.NewRequest` accepts the add request,
exactly one add call `POST knowledge/{id}/file/add` with the body `{"file_id": fileID}` is
sent; when it does not, none is sent and the error is returned; and the function succeeds
exactly when the add call is answered with status 200 and a readable body, and returns an
error otherwise. -/
theorem addFileToKnowledge_idempotent (srv : Server) (knowledgeID fileID : String)
    (trace : List Call) :
    ((∃ status body r,
        srv trace ⟨"GET", "knowledge/" ++ knowledgeID, .empty⟩ = .response status (some body) ∧
        unmarshalAPIResponse body = .ok r ∧ fileID ∈ r.FileIDs) →
      addFileToKnowledge srv knowledgeID fileID trace =
        (.ok (), trace ++ [⟨"GET", "knowledge/" ++ knowledgeID, .empty⟩])) ∧
    ((¬ ∃ status body r,
        srv trace ⟨"GET", "knowledge/" ++ knowledgeID, .empty⟩ = .response status (some body) ∧
        unmarshalAPIResponse body = .ok r ∧ fileID ∈ r.FileIDs) →
      ∀ t1,
        ((srv trace ⟨"GET", "knowledge/" ++ knowledgeID, .empty⟩ = .requestError ∧ t1 = trace) ∨
          (srv trace ⟨"GET", "knowledge/" ++ knowledgeID, .empty⟩ ≠ .requestError ∧
            t1 = trace ++ [⟨"GET", "knowledge/" ++ knowledgeID, .empty⟩])) →
        (srv t1 ⟨"POST", "knowledge/" ++ knowledgeID ++ "/file/add",
            .json (.obj [("file_id", .str fileID)])⟩ ≠ .requestError →
          (addFileToKnowledge srv knowledgeID fileID trace).2 =
            t1 ++ [⟨"POST", "knowledge/" ++ knowledgeID ++ "/file/add",
              .json (.obj [("file_id", .str fileID)])⟩]) ∧
        (srv t1 ⟨"POST", "knowledge/" ++ knowledgeID ++ "/file/add",
            .json (.obj [("file_id", .str fileID)])⟩ = .requestError →
          addFileToKnowledge srv knowledgeID fileID trace = (.error .newRequest, t1)) ∧
        ((∃ e, (addFileToKnowledge srv knowledgeID fileID trace).1 = .error e) ↔
          ¬ ∃ body, srv t1 ⟨"POST", "knowledge/" ++ knowledgeID ++ "/file/add",
            .json (.obj [("file_id", .str fileID)])⟩ = .response 200 (some body))) := by
  have htrace := checkFileInKnowledge_trace srv knowledgeID fileID trace
  have hiff := checkFileInKnowledge_true_iff srv knowledgeID fileID trace
  constructor
  · intro h
    have hc := hiff.mpr h
    have hreq : srv trace ⟨"GET", "knowledge/" ++ knowledgeID, .empty⟩ ≠ .requestError := by
      obtain ⟨status, body, r, hs, -, -⟩ := h
      rw [hs]
      simp
    have ht := htrace.1 hreq
    unfold addFileToKnowledge
    split
    · rename_i t heq
      rw [heq] at ht
      simp only at ht
      rw [ht]
    · rename_i t heq
      rw [heq] at hc
      cases hc
  · intro h t1 ht1
    have hc : (checkFileInKnowledge srv knowledgeID fileID trace).1 = false := by
      cases hb : (checkFileInKnowledge srv knowledgeID fileID trace).1
      · rfl
      · exact absurd (hiff.mp hb) h
    have hcheck : checkFileInKnowledge srv knowledgeID fileID trace = (false, t1) := by
      rcases ht1 with ⟨hreq, rfl⟩ | ⟨hreq, rfl⟩
      · exact htrace.2 hreq
      · rw [← htrace.1 hreq, ← hc]
    obtain ⟨h1, h2, h3⟩ := addFileToKnowledge_absent srv knowledgeID fileID trace t1 hcheck
    refine ⟨h1, h2, ?_⟩
    rw [except_unit_cases, h3]

/-- Witness of C6 as amended, on `sampleServer`: the file `f1` is already in `k1`, so only
the get call is sent. -/
theorem addFileToKnowledge_idempotent_witness :
    addFileToKnowledge sampleServer "k1" "f1" [] =
      (.ok (), [] ++ [⟨"GET", "knowledge/" ++ "k1", .empty⟩]) :=
  (addFileToKnowledge_idempotent sampleServer "k1" "f1" []).1
    ⟨200, .json (.obj [("id", .str "k1"), ("file_ids", .arr [.str "f1"])]),
      ⟨"k1", "", "", ["f1"], ""⟩, rfl, by decide, by decide⟩

/-- Counterexample to C6 as stated: for the knowledge ID `k`, newline, `1` the membership
check cannot fetch the collection, and the add request cannot be built either, because the
URL holds a control character: `addFileToKnowledge` returns the error and no add call (no
call at all) has been sent. -/
theorem addFileToKnowledge_sends_nothing :
    controlCheckingServer [] ⟨"GET", "knowledge/" ++ "k\n1", .empty⟩ = .requestError ∧
      (addFileToKnowledge controlCheckingServer "k\n1" "f1" []).1 = .error .newRequest ∧
      (addFileToKnowledge controlCheckingServer "k\n1" "f1" []).2.length = 0 := by
  refine ⟨rfl, by decide, by decide⟩

/-- A repeated `file_ids` member is decoded into the slice the first one left: for the body
`{"file_ids":["f1","f2"],"file_ids":[null]}` the record holds `["f1"]`, and for
`{"file_ids":["a","b"],"file_ids":["x"],"file_ids":[null,null]}` it holds `["x","b"]`. -/
theorem unmarshalAPIResponse_repeated_file_ids :
    unmarshalAPIResponse (.json (.obj [("file_ids", .arr [.str "f1", .str "f2"]),
        ("file_ids", .arr [.null])])) = .ok ⟨"", "", "", ["f1"], ""⟩ ∧
      unmarshalAPIResponse (.json (.obj [("file_ids", .arr [.str "a", .str "b"]),
        ("file_ids", .arr [.str "x"]), ("file_ids", .arr [.null, .null])])) =
        .ok ⟨"", "", "", ["x", "b"], ""⟩ := by
  constructor <;> decide

/-! ### `uploadFile` -/

theorem decodeMember_ID (d d' : Decoding) (key : String) (v : JSON)
    (hkey : keyMatches key "id" = false) (h : decodeMember d key v = .ok d') :
    d'.value.ID = d.value.ID := by
  unfold decodeMember at h
  rw [if_neg (by simp [hkey])] at h
  split at h
  · cases hd : decodeString d.value.Name v <;> rw [hd] at h <;> simp [Except.map] at h
    rw [← h]
  · split at h
    · cases hd : decodeString d.value.Description v <;> rw [hd] at h <;>
        simp [Except.map] at h
      rw [← h]
    · split at h
      · cases hd : decodeStringSlice d.value.FileIDs d.spare v <;> rw [hd] at h <;>
          simp [Except.map] at h
        rw [← h]
      · split at h
        · cases hd : decodeString d.value.Message v <;> rw [hd] at h <;>
            simp [Except.map] at h
          rw [← h]
        · cases h
          rfl

theorem decodeMembers_ID (members : List (String × JSON)) (d d' : Decoding)
    (hkeys : ∀ kv ∈ members, keyMatches kv.1 "id" = false)
    (h : decodeMembers d members = .ok d') : d'.value.ID = d.value.ID := by
  induction members generalizing d with
  | nil =>
    simp only [decodeMembers, Except.ok.injEq] at h
    rw [h]
  | cons kv rest ih =>
    obtain ⟨k, v⟩ := kv
    rw [decodeMembers] at h
    split at h
    · rename_i d1 h1
      rw [ih d1 (fun kv hkv => hkeys kv (List.mem_cons_of_mem _ hkv)) h]
      exact decodeMember_ID d d1 k v (hkeys (k, v) (List.mem_cons_self _ _)) h1
    · cases h

/-- C7, as amended: the error contract of `uploadFile` for a readable file and every answer
of the service.  A status other than 200 gives the upload error with that status, whether
or not the body can be read.  With status 200, a body that cannot be read gives the read
error; a body that was read gives the parse error exactly when `json.Unmarshal` rejects it,
and otherwise the `id` of the decoded record is returned; for a JSON object without an `id`
member that is the empty string, returned without an error. -/
theorem uploadFile_error_contract (srv : Server) (fs : FS) (filepath : Path) (trace : List Call)
    (bytes : List Nat) (status : Nat) (body : Option Body)
    (hfile : stat fs filepath = some (.file bytes))
    (hresp : srv trace (uploadCall filepath bytes) = .response status body) :
    (status ≠ 200 → (uploadFile srv fs filepath trace).1 = .error (.uploadFailed status)) ∧
    (status = 200 → body = none → (uploadFile srv fs filepath trace).1 = .error .readBody) ∧
    (status = 200 → ∀ b, body = some b →
      (∀ e, unmarshalAPIResponse b = .error e →
        (uploadFile srv fs filepath trace).1 = .error (.unmarshalUpload e)) ∧
      (∀ r, unmarshalAPIResponse b = .ok r → (uploadFile srv fs filepath trace).1 = .ok r.ID) ∧
      (∀ members r, b = .json (.obj members) →
        (∀ kv ∈ members, keyMatches kv.1 "id" = false) →
        unmarshalAPIResponse b = .ok r → (uploadFile srv fs filepath trace).1 = .ok "")) := by
  have hr : srv trace ⟨"POST", "files/", .multipart (String.mk (renderPath filepath)) bytes⟩ =
      .response status body := hresp
  refine ⟨?_, ?_, ?_⟩
  · intro hst
    have hst' : status ≠ statusOK := hst
    simp [uploadFile, hfile, hr, hst']
  · intro hst hb
    have hst' : status = statusOK := hst
    simp [uploadFile, hfile, hr, hst', hb]
  · intro hst b hb
    have hst' : status = statusOK := hst
    have hok : ∀ r, unmarshalAPIResponse b = .ok r →
        (uploadFile srv fs filepath trace).1 = .ok r.ID := by
      intro r hdec
      simp [uploadFile, hfile, hr, hst', hb, hdec]
    refine ⟨?_, hok, ?_⟩
    · intro e hdec
      simp [uploadFile, hfile, hr, hst', hb, hdec]
    · intro members r hbody hkeys hdec
      rw [hok r hdec]
      subst hbody
      simp only [unmarshalAPIResponse, decodeAPIResponse] at hdec
      cases hm : decodeMembers ⟨APIResponse.zero, []⟩ members with
      | error e => simp [hm, Except.map] at hdec
      | ok d =>
        simp only [hm, Except.map, Except.ok.injEq] at hdec
        rw [← hdec, decodeMembers_ID members ⟨APIResponse.zero, []⟩ d hkeys hm]
        rfl

/-- Witness of C7 as amended, on `sampleServer` and `sampleFS`: the upload of `intro.md` is
answered with `{"id": "new"}` and returns `new`. -/
theorem uploadFile_error_contract_witness :
    (uploadFile sampleServer sampleFS ["work", "docs_content", "intro.md"] []).1 = .ok "new" :=
  ((uploadFile_error_contract sampleServer sampleFS ["work", "docs_content", "intro.md"] []
    [35, 32, 72, 105] 200 (some (.json (.obj [("id", .str "new")]))) (by decide) rfl).2.2 rfl
      (.json (.obj [("id", .str "new")])) rfl).2.1
    ⟨"new", "", "", [], ""⟩ (by decide)

/-- Counterexample to C7 as stated: the service answers the upload with status 200 and the
well-formed object `{}`, which has no `id` field; `uploadFile` does not fail with a parse
error but returns the empty string as the file identifier. -/
theorem uploadFile_missing_id_no_error :
    emptyObjectServer [] (uploadCall ["work", "docs_content", "intro.md"] [35, 32, 72, 105]) =
        .response statusOK (some (.json (.obj []))) ∧
      (uploadFile emptyObjectServer sampleFS ["work", "docs_content", "intro.md"] []).1 =
        .ok "" := by
  constructor
  · rfl
  · decide

/-! ### The upload loop of `main` -/

theorem uploadLoop_tally (srv : Server) (fs : FS) (knowledgeID : String) (files : List Path)
    (tally : Tally) (trace : List Call) :
    (uploadLoop srv fs knowledgeID files tally trace).1 =
      ⟨tally.successfulUploads +
          (fileResults srv fs knowledgeID files trace).countP (fun r => r.isProcessed),
        tally.failedUploads +
          (fileResults srv fs knowledgeID files trace).countP (fun r => !r.isProcessed)⟩ := by
  induction files generalizing tally trace with
  | nil => simp [uploadLoop, fileResults]
  | cons file rest ih =>
    rw [uploadLoop, fileResults]
    unfold processFile
    cases hu : uploadFile srv fs file trace with
    | mk ru trace1 =>
      cases ru with
      | error e =>
        simp only [hu]
        rw [ih]
        simp [FileResult.isProcessed, Nat.add_assoc, Nat.add_comm]
      | ok fileID =>
        simp only [hu]
        cases ha : addFileToKnowledge srv knowledgeID fileID trace1 with
        | mk ra trace2 =>
          cases ra with
          | error e =>
            simp only
            rw [ih]
            simp [FileResult.isProcessed, Nat.add_assoc, Nat.add_comm]
          | ok u =>
            simp only
            rw [ih]
            simp [FileResult.isProcessed, Nat.add_assoc, Nat.add_comm]

theorem fileResults_length (srv : Server) (fs : FS) (knowledgeID : String) (files : List Path)
    (trace : List Call) : (fileResults srv fs knowledgeID files trace).length = files.length := by
  induction files generalizing trace with
  | nil => rfl
  | cons file rest ih => simp [fileResults, ih]

/-- C2: partial failure isolation in the upload loop of `main`.  The loop handles every one
of the `M` files (it is total and yields one outcome per file); `failedUploads` is the number
of files for which `uploadFile` or `addFileToKnowledge` returned an error,
`successfulUploads` the number for which both succeeded, and the two add up to `M`; with
exactly one failing file the tally is 1 failure and `M - 1` successes. -/
theorem uploadLoop_partial_failure (srv : Server) (fs : FS) (knowledgeID : String)
    (files : List Path) (trace : List Call) :
    (fileResults srv fs knowledgeID files trace).length = files.length ∧
    (uploadLoop srv fs knowledgeID files ⟨0, 0⟩ trace).1.failedUploads =
      (fileResults srv fs knowledgeID files trace).countP (fun r => !r.isProcessed) ∧
    (uploadLoop srv fs knowledgeID files ⟨0, 0⟩ trace).1.successfulUploads =
      (fileResults srv fs knowledgeID files trace).countP (fun r => r.isProcessed) ∧
    (uploadLoop srv fs knowledgeID files ⟨0, 0⟩ trace).1.successfulUploads +
      (uploadLoop srv fs knowledgeID files ⟨0, 0⟩ trace).1.failedUploads = files.length ∧
    ((fileResults srv fs knowledgeID files trace).countP (fun r => !r.isProcessed) = 1 →
      (uploadLoop srv fs knowledgeID files ⟨0, 0⟩ trace).1 = ⟨files.length - 1, 1⟩) := by
  have hlen := fileResults_length srv fs knowledgeID files trace
  have ht := uploadLoop_tally srv fs knowledgeID files ⟨0, 0⟩ trace
  have hsum := List.length_eq_countP_add_countP (fun r : FileResult => r.isProcessed)
    (l := fileResults srv fs knowledgeID files trace)
  have hnot : (fun r : FileResult => decide ¬ r.isProcessed = true) =
      (fun r : FileResult => !r.isProcessed) := by
    funext r
    cases r.isProcessed <;> rfl
  rw [hnot, hlen] at hsum
  refine ⟨hlen, ?_, ?_, ?_, ?_⟩
  · rw [ht]
    simp
  · rw [ht]
    simp
  · rw [ht]
    simp only [Nat.zero_add]
    omega
  · intro h1
    rw [ht]
    simp only [Nat.zero_add, h1, Tally.mk.injEq, and_true]
    omega

/-- Witness of C2 on `sampleServer` and `sampleFS`: of the two files `intro.md`, which
uploads, and `gone.md`, which cannot be opened, one succeeds and one fails. -/
theorem uploadLoop_partial_failure_witness :
    (uploadLoop sampleServer sampleFS "k1"
      [["work", "docs_content", "intro.md"], ["work", "docs_content", "gone.md"]] ⟨0, 0⟩ []).1 =
      ⟨2 - 1, 1⟩ :=
  (uploadLoop_partial_failure sampleServer sampleFS "k1"
    [["work", "docs_content", "intro.md"], ["work", "docs_content", "gone.md"]] []).2.2.2.2
    (by decide)

/-! ### The extraction loop -/

theorem extractLoop_succ (tempDir : Path) (i : Nat) (files : List ZipEntry)
    (extractedDir : Option Path) (fs : FS) :
    extractLoop tempDir (i + 1) files extractedDir fs =
      match extractEntries tempDir files fs with
      | (.error e, fs1) => (.error e, fs1)
      | (.ok (), fs1) => (.ok extractedDir, fs1) := by
  induction files generalizing i fs with
  | nil => rfl
  | cons f rest ih =>
    rw [extractLoop, if_neg (Nat.succ_ne_zero i), extractEntries]
    unfold extractEntry isMarkdown
    dsimp only
    cases hd : f.isDir with
    | true =>
      simp only [if_true]
      cases hm : mkdirAll fs (join tempDir f.name) with
      | error e => rfl
      | ok fs1 => exact ih (i + 1) fs1
    | false =>
      simp only [Bool.false_eq_true, if_false]
      cases h1 : hasSuffix (join tempDir f.name) ".md" <;>
        cases h2 : hasSuffix (join tempDir f.name) ".mdx" <;>
        simp only [Bool.not_true, Bool.not_false, Bool.and_self, Bool.and_true, Bool.and_false,
          Bool.or_self, Bool.or_true, Bool.or_false, if_true, Bool.false_eq_true, if_false]
      · exact ih (i + 1) fs
      all_goals
        cases hc : createTrunc fs (join tempDir f.name) with
        | error e => rfl
        | ok fs1 =>
          cases hdata : f.data with
          | openFails => rfl
          | copyFails written => rfl
          | content bytes => exact ih (i + 1) _

theorem extractLoop_zero (tempDir : Path) (first : ZipEntry) (others : List ZipEntry) (fs : FS) :
    extractLoop tempDir 0 (first :: others) none fs = extractAll tempDir (first :: others) fs := by
  rw [extractLoop, if_pos rfl, extractLoop_succ, extractAll]

/-! ### `copyMarkdownFiles` on the scenario of the specification -/

/-- C3, the code at the failing input: on the archive of the specification's scenario
(`docs-main/`, `docs-main/intro.md`, `docs-main/api/ref.mdx`, `docs-main/image.png`), run
with a new temporary directory and no `docs_content`, `copyMarkdownFiles` does not succeed:
the root entry is skipped, so `docs-main` does not exist when `intro.md` is to be created,
and the function returns the error "creating file" with nothing left in the file system;
`main` ends there with the fatal error, before the walker and before any upload. -/
theorem copyMarkdownFiles_scenario_fails (fuel : Nat) :
    copyMarkdownFiles fuel ["work"] ⟨some sampleTempDir, some [80, 75], some scenarioArchive⟩
        freshFS =
      some (.error (.creatingFile ["tmp", "openwebui-docs1", "docs-main", "intro.md"] .notExist),
        freshFS) ∧
    main fuel ⟨sampleServer, some ["work"], ⟨some sampleTempDir, some [80, 75],
        some scenarioArchive⟩⟩ freshFS =
      some (.error (.copyingMarkdownFiles
          (.creatingFile ["tmp", "openwebui-docs1", "docs-main", "intro.md"] .notExist)),
        [listCall, resetCall "k1"], freshFS) := by
  constructor
  · rfl
  · rfl

/-- The same files in an archive with directory entries are extracted: `docs_content` then
holds exactly `intro.md` and `api/ref.mdx` and the walker of `main` lists these two. -/
theorem copyMarkdownFiles_with_directory_entries :
    copyMarkdownFiles 4 ["work"] ⟨some sampleTempDir, some [80, 75],
        some scenarioArchiveWithDirs⟩ freshFS =
      some (.ok ["work", "docs_content"],
        [(["work", "docs_content", "intro.md"], .file [1]),
          (["work", "docs_content", "intro.md"], .file []),
          (["work", "docs_content", "api", "ref.mdx"], .file [2]),
          (["work", "docs_content", "api", "ref.mdx"], .file []),
          (["work", "docs_content", "api"], .dir), (["work", "docs_content"], .dir),
          (["work"], .dir), (["tmp"], .dir)]) ∧
    listMarkdownFiles 4
        [(["work", "docs_content", "intro.md"], .file [1]),
          (["work", "docs_content", "intro.md"], .file []),
          (["work", "docs_content", "api", "ref.mdx"], .file [2]),
          (["work", "docs_content", "api", "ref.mdx"], .file []),
          (["work", "docs_content", "api"], .dir), (["work", "docs_content"], .dir),
          (["work"], .dir), (["tmp"], .dir)] ["work", "docs_content"] =
      some (.ok [["work", "docs_content", "api", "ref.mdx"], ["work", "docs_content", "intro.md"]]) := by
  constructor
  · decide
  · decide

/-! ### Basic facts about the file system -/

theorem lookupNode_some_mem (fs : FS) (p : Path) (n : Node) (h : lookupNode fs p = some n) :
    (p, n) ∈ fs := by
  induction fs with
  | nil => simp [lookupNode] at h
  | cons e rest ih =>
    obtain ⟨q, m⟩ := e
    rw [lookupNode] at h
    by_cases hq : q = p
    · rw [if_pos hq] at h
      cases h
      rw [hq]
      exact List.mem_cons_self _ _
    · rw [if_neg hq] at h
      exact List.mem_cons_of_mem _ (ih h)

theorem stat_file_mem (fs : FS) (p : Path) (c : List Nat) (h : stat fs p = some (.file c)) :
    (p, .file c) ∈ fs := by
  unfold stat at h
  split at h
  · cases h
  · exact lookupNode_some_mem fs p _ h

theorem stat_cons (q : Path) (n : Node) (fs : FS) (p : Path) :
    stat ((q, n) :: fs) p = if p = [] then some .dir else if q = p then some n else stat fs p := by
  unfold stat
  by_cases hp : p = []
  · simp [hp]
  · simp [hp, lookupNode]

theorem stat_cons_ne (q : Path) (n : Node) (fs : FS) (p : Path) (h : q ≠ p) :
    stat ((q, n) :: fs) p = stat fs p := by
  rw [stat_cons]
  by_cases hp : p = []
  · rw [if_pos hp]
    simp [stat, hp]
  · rw [if_neg hp, if_neg h]

theorem stat_cons_file (q : Path) (n : Node) (fs : FS) (p : Path) (c : List Nat)
    (h : stat ((q, n) :: fs) p = some (.file c)) :
    (q = p ∧ n = .file c) ∨ stat fs p = some (.file c) := by
  rw [stat_cons] at h
  by_cases hp : p = []
  · rw [if_pos hp] at h
    cases h
  · rw [if_neg hp] at h
    by_cases hq : q = p
    · rw [if_pos hq] at h
      left
      exact ⟨hq, Option.some.inj h⟩
    · rw [if_neg hq] at h
      right
      exact h

theorem mkdirAllFrom_stat (rest : List String) (pre : Path) (fs fs' : FS)
    (h : mkdirAllFrom fs pre rest = .ok fs') (p : Path) :
    stat fs' p = stat fs p ∨ (stat fs p = none ∧ stat fs' p = some .dir) := by
  induction rest generalizing fs pre with
  | nil =>
    simp only [mkdirAllFrom, Except.ok.injEq] at h
    left
    rw [h]
  | cons c rest ih =>
    rw [mkdirAllFrom] at h
    split at h
    · exact ih _ _ h
    · cases h
    · rename_i hnone
      have hstep := stat_cons (pre ++ [c]) .dir fs p
      rcases ih _ _ h with h1 | ⟨h1, h2⟩
      · rw [hstep] at h1
        by_cases hp : p = []
        · left
          rw [h1, if_pos hp]
          simp [stat, hp]
        · rw [if_neg hp] at h1
          by_cases hq : pre ++ [c] = p
          · rw [if_pos hq] at h1
            right
            rw [← hq]
            rw [← hq] at h1
            exact ⟨hnone, h1⟩
          · rw [if_neg hq] at h1
            left
            exact h1
      · rw [hstep] at h1
        by_cases hp : p = []
        · rw [if_pos hp] at h1
          cases h1
        · rw [if_neg hp] at h1
          by_cases hq : pre ++ [c] = p
          · rw [if_pos hq] at h1
            cases h1
          · rw [if_neg hq] at h1
            right
            exact ⟨h1, h2⟩

theorem mkdirAll_stat_file (fs fs' : FS) (q : Path) (h : mkdirAll fs q = .ok fs') (p : Path)
    (c : List Nat) : stat fs' p = some (.file c) ↔ stat fs p = some (.file c) := by
  rcases mkdirAllFrom_stat q [] fs fs' h p with h1 | ⟨h1, h2⟩
  · rw [h1]
  · rw [h1, h2]
    simp

theorem mkdirAllFrom_ok_stat (rest : List String) (pre : Path) (fs fs' : FS)
    (hpre : stat fs pre = some .dir) (h : mkdirAllFrom fs pre rest = .ok fs') :
    stat fs' (pre ++ rest) = some .dir := by
  induction rest generalizing fs pre with
  | nil =>
    simp only [mkdirAllFrom, Except.ok.injEq] at h
    rw [← h]
    simpa using hpre
  | cons c rest ih =>
    rw [mkdirAllFrom] at h
    split at h
    · rename_i hs
      have := ih (pre ++ [c]) fs hs h
      simpa using this
    · cases h
    · have hs : stat ((pre ++ [c], Node.dir) :: fs) (pre ++ [c]) = some .dir := by
        rw [stat_cons]
        simp
      have := ih (pre ++ [c]) _ hs h
      simpa using this

theorem mkdirAll_ok_stat (fs fs' : FS) (p : Path) (h : mkdirAll fs p = .ok fs') :
    stat fs' p = some .dir := by
  have := mkdirAllFrom_ok_stat p [] fs fs' (by simp [stat]) h
  simpa using this

theorem lookupNode_filter (keep : Path → Bool) (fs : FS) (p : Path) :
    lookupNode (fs.filter (fun e => keep e.1)) p = if keep p then lookupNode fs p else none := by
  induction fs with
  | nil => simp [lookupNode]
  | cons e rest ih =>
    obtain ⟨q, n⟩ := e
    rw [List.filter_cons]
    by_cases hk : keep q = true
    · simp only [hk, if_true, lookupNode]
      by_cases hq : q = p
      · subst hq
        simp [hk]
      · simp only [hq, if_false]
        exact ih
    · simp only [hk, Bool.false_eq_true, if_false, lookupNode]
      by_cases hq : q = p
      · subst hq
        rw [ih]
        simp [hk]
      · simp only [hq, if_false]
        exact ih

theorem removeAll_stat_file (fs : FS) (t p : Path) (c : List Nat)
    (h : stat (removeAll fs t) p = some (.file c)) :
    stat fs p = some (.file c) ∧ t.isPrefixOf p = false := by
  unfold stat at h ⊢
  by_cases hp : p = []
  · rw [if_pos hp] at h
    cases h
  · rw [if_neg hp] at h
    rw [if_neg hp]
    unfold removeAll at h
    rw [lookupNode_filter (fun q => !t.isPrefixOf q)] at h
    cases ht : t.isPrefixOf p
    · simp only [ht, Bool.not_false, if_true] at h
      exact ⟨h, rfl⟩
    · simp [ht] at h

theorem createTrunc_ok (fs fs1 : FS) (p : Path) (h : createTrunc fs p = .ok fs1) :
    fs1 = (p, .file []) :: fs ∧ stat fs p ≠ some .dir := by
  unfold createTrunc at h
  split at h
  · cases h
  · split at h
    · cases h
    · rename_i hnd
      simp only [Except.ok.injEq] at h
      exact ⟨h.symm, fun hs => hnd hs⟩

theorem mkdir_ok (fs fs1 : FS) (p : Path) (h : mkdir fs p = .ok fs1) :
    fs1 = (p, .dir) :: fs := by
  unfold mkdir at h
  split at h
  · cases h
  · split at h
    · cases h
    · simp only [Except.ok.injEq] at h
      exact h.symm

/-! ### `copyMarkdownFiles` on an archive without entries -/

theorem copyMarkdownBody_nil (fuel : Nat) (docsDir tempDir : Path) (fs : FS) :
    copyMarkdownBody fuel docsDir tempDir [] fs =
      match mkdirAll fs (join docsDir "docs_content") with
      | .error e => some (.error (.creatingDocsContentDir e), fs)
      | .ok fs2 => some (.error (.walking .notExist), fs2) := by
  unfold copyMarkdownBody
  simp only [extractLoop]

theorem join_docs_zip (tempDir : Path) : join tempDir "docs.zip" = tempDir ++ ["docs.zip"] := by
  rfl

theorem isPrefixOf_docs_zip (tempDir : Path) :
    tempDir.isPrefixOf (tempDir ++ ["docs.zip"]) = true :=
  List.isPrefixOf_iff_prefix.mpr (List.prefix_append _ _)

theorem mkdir_stat_file (fs fs1 : FS) (t : Path) (h : mkdir fs t = .ok fs1) (p : Path)
    (c : List Nat) (hs : stat fs1 p = some (.file c)) : stat fs p = some (.file c) := by
  rw [mkdir_ok fs fs1 t h] at hs
  rcases stat_cons_file _ _ _ _ _ hs with ⟨-, hn⟩ | h1
  · cases hn
  · exact h1

/-- After the temporary directory was made and the archive stored in it, every regular file
is one of before or the archive file itself. -/
theorem download_stat_file (fs fs1 fs2 : FS) (tempDir : Path) (fetched : Option (List Nat))
    (hm : mkdir fs tempDir = .ok fs1)
    (hd : downloadFile fetched (join tempDir "docs.zip") fs1 = some fs2) (p : Path)
    (c : List Nat) (hs : stat fs2 p = some (.file c)) :
    stat fs p = some (.file c) ∨ p = tempDir ++ ["docs.zip"] := by
  unfold downloadFile at hd
  cases fetched with
  | none => cases hd
  | some bytes =>
    simp only at hd
    cases hc : createTrunc fs1 (join tempDir "docs.zip") with
    | error e => simp [hc] at hd
    | ok fs1' =>
      obtain ⟨hfs, -⟩ := createTrunc_ok fs1 fs1' _ hc
      subst hfs
      simp only [hc, Option.some.injEq] at hd
      rw [← hd] at hs
      rcases stat_cons_file _ _ _ _ _ hs with ⟨hq, -⟩ | h1
      · right
        rw [← hq]
        exact join_docs_zip tempDir
      · rcases stat_cons_file _ _ _ _ _ h1 with ⟨hq, -⟩ | h2
        · right
          rw [← hq]
          exact join_docs_zip tempDir
        · left
          exact mkdir_stat_file fs fs1 tempDir hm p c h2

theorem removeAll_download_stat_file (fs fs1 fs2 fs3 : FS) (tempDir : Path)
    (fetched : Option (List Nat)) (hm : mkdir fs tempDir = .ok fs1)
    (hd : downloadFile fetched (join tempDir "docs.zip") fs1 = some fs2)
    (h23 : ∀ p c, stat fs3 p = some (.file c) → stat fs2 p = some (.file c)) (p : Path)
    (c : List Nat) (hs : stat (removeAll fs3 tempDir) p = some (.file c)) :
    stat fs p = some (.file c) := by
  obtain ⟨h3, hpre⟩ := removeAll_stat_file fs3 tempDir p c hs
  rcases download_stat_file fs fs1 fs2 tempDir fetched hm hd p c (h23 p c h3) with h | h
  · exact h
  · rw [h, isPrefixOf_docs_zip] at hpre
    cases hpre

theorem mkdirAllFrom_ok_of_no_file (rest : List String) (pre : Path) (fs : FS)
    (h : ∀ q, q <+: pre ++ rest → ∀ c, stat fs q ≠ some (.file c)) :
    ∃ fs', mkdirAllFrom fs pre rest = .ok fs' := by
  induction rest generalizing fs pre with
  | nil => exact ⟨fs, rfl⟩
  | cons c rest ih =>
    have hpre : pre ++ [c] <+: pre ++ c :: rest := by
      refine ⟨rest, ?_⟩
      simp
    rw [mkdirAllFrom]
    split
    · exact ih (pre ++ [c]) fs (fun q hq => h q (by simpa using hq))
    · rename_i b hs
      exact absurd hs (h _ hpre b)
    · refine ih (pre ++ [c]) _ (fun q hq b => ?_)
      rw [stat_cons]
      by_cases hq0 : q = []
      · rw [if_pos hq0]
        simp
      · rw [if_neg hq0]
        by_cases hq1 : pre ++ [c] = q
        · rw [if_pos hq1]
          simp
        · rw [if_neg hq1]
          exact h q (by simpa using hq) b

theorem mkdirAllFrom_no_file (rest : List String) (pre : Path) (fs fs' : FS)
    (h : mkdirAllFrom fs pre rest = .ok fs') :
    ∀ q, q <+: pre ++ rest → pre.length < q.length → ∀ c, stat fs q ≠ some (.file c) := by
  induction rest generalizing fs pre with
  | nil =>
    intro q hq hlen
    have := hq.length_le
    simp only [List.append_nil] at this
    omega
  | cons c rest ih =>
    intro q hq hlen b
    have hpre : pre ++ [c] <+: pre ++ c :: rest := by
      refine ⟨rest, ?_⟩
      simp
    have hcase : q = pre ++ [c] ∨ (pre ++ [c]).length < q.length := by
      by_cases hl : q.length = pre.length + 1
      · left
        have h1 : q <+: pre ++ [c] := List.prefix_of_prefix_length_le hq hpre (by simp [hl])
        exact h1.eq_of_length (by simp [hl])
      · right
        simp only [List.length_append, List.length_singleton]
        omega
    rw [mkdirAllFrom] at h
    split at h
    · rename_i hs
      rcases hcase with hq1 | hq1
      · rw [hq1, hs]
        simp
      · exact ih (pre ++ [c]) fs h q (by simpa using hq) hq1 b
    · cases h
    · rename_i hs
      rcases hcase with hq1 | hq1
      · rw [hq1, hs]
        simp
      · have hne : pre ++ [c] ≠ q := by
          intro heq
          rw [← heq] at hq1
          exact Nat.lt_irrefl _ hq1
        have := ih (pre ++ [c]) _ h q (by simpa using hq) hq1 b
        rw [stat_cons_ne _ _ _ _ hne] at this
        exact this

theorem mkdirAllFrom_error (rest : List String) (pre : Path) (fs : FS) (e : FsError)
    (h : mkdirAllFrom fs pre rest = .error e) : e = .notDir := by
  induction rest generalizing fs pre with
  | nil => simp [mkdirAllFrom] at h
  | cons c rest ih =>
    rw [mkdirAllFrom] at h
    split at h
    · exact ih _ _ h
    · simp only [Except.error.injEq] at h
      exact h.symm
    · exact ih _ _ h

theorem mkdirAll_error_of_file (fs : FS) (p q : Path) (c : List Nat) (hq : q <+: p)
    (hs : stat fs q = some (.file c)) : mkdirAll fs p = .error .notDir := by
  cases hm : mkdirAll fs p with
  | error e => rw [mkdirAllFrom_error p [] fs e hm]
  | ok fs' =>
    have hlen : ([] : Path).length < q.length := by
      cases q with
      | nil => simp [stat] at hs
      | cons x xs => simp
    exact absurd hs (mkdirAllFrom_no_file p [] fs fs' hm q (by simpa using hq) hlen c)

/-- C5, as amended: an archive without entries.  Let the temporary directory have been made
(`fs1`) and the archive stored in it (`fs2`), and let the archive have zero entries.  Then
`copyMarkdownFiles` returns an error for every fuel.  If a regular file lies on the path of
`docs_content`, the directory cannot be made and the error is "creating docs_content dir"
(ENOTDIR).  Otherwise `docs_content` is made, a directory now, nothing else changing, and
the error is "walking extracted directory" with ENOENT, because the extraction root is still
the empty path.  What is left is the file system at that point without the temporary
directory, and in it every regular file was there before the call, with the same bytes. -/
theorem copyMarkdownFiles_empty_archive (fuel : Nat) (docsDir tempDir : Path)
    (bytes : List Nat) (fs fs1 fs2 : FS) (hm : mkdir fs tempDir = .ok fs1)
    (hd : downloadFile (some bytes) (join tempDir "docs.zip") fs1 = some fs2) :
    ((∃ q c, q <+: join docsDir "docs_content" ∧ stat fs2 q = some (.file c)) →
      copyMarkdownFiles fuel docsDir ⟨some tempDir, some bytes, some []⟩ fs =
        some (.error (.creatingDocsContentDir .notDir), removeAll fs2 tempDir)) ∧
    ((∀ q, q <+: join docsDir "docs_content" → ∀ c, stat fs2 q ≠ some (.file c)) →
      ∃ fs3,
        copyMarkdownFiles fuel docsDir ⟨some tempDir, some bytes, some []⟩ fs =
          some (.error (.walking .notExist), removeAll fs3 tempDir) ∧
        stat fs3 (join docsDir "docs_content") = some .dir ∧
        ∀ p, stat fs3 p = stat fs2 p ∨ (stat fs2 p = none ∧ stat fs3 p = some .dir)) ∧
    (∀ r fs', copyMarkdownFiles fuel docsDir ⟨some tempDir, some bytes, some []⟩ fs =
        some (r, fs') →
      (r = .error (.creatingDocsContentDir .notDir) ∨ r = .error (.walking .notExist)) ∧
      ∀ p c, stat fs' p = some (.file c) → stat fs p = some (.file c)) := by
  have hrun : copyMarkdownFiles fuel docsDir ⟨some tempDir, some bytes, some []⟩ fs =
      match mkdirAll fs2 (join docsDir "docs_content") with
      | .error e => some (.error (.creatingDocsContentDir e), removeAll fs2 tempDir)
      | .ok fs3 => some (.error (.walking .notExist), removeAll fs3 tempDir) := by
    unfold copyMarkdownFiles
    simp only [hm, hd, copyMarkdownBody_nil]
    cases mkdirAll fs2 (join docsDir "docs_content") <;> rfl
  refine ⟨?_, ?_, ?_⟩
  · rintro ⟨q, c, hq, hs⟩
    rw [hrun, mkdirAll_error_of_file fs2 _ q c hq hs]
  · intro hfree
    obtain ⟨fs3, h3⟩ := mkdirAllFrom_ok_of_no_file (join docsDir "docs_content") [] fs2
      (by simpa using hfree)
    have h3' : mkdirAll fs2 (join docsDir "docs_content") = .ok fs3 := h3
    refine ⟨fs3, ?_, mkdirAll_ok_stat fs2 fs3 _ h3', fun p => mkdirAllFrom_stat _ [] fs2 fs3 h3 p⟩
    rw [hrun, h3']
  · intro r fs' h
    rw [hrun] at h
    cases hc : mkdirAll fs2 (join docsDir "docs_content") with
    | error e =>
      have hnd := mkdirAllFrom_error _ [] fs2 e hc
      subst hnd
      simp only [hc, Option.some.injEq, Prod.mk.injEq] at h
      rw [← h.1, ← h.2]
      exact ⟨Or.inl rfl,
        removeAll_download_stat_file fs fs1 fs2 fs2 tempDir _ hm hd (fun _ _ hs => hs)⟩
    | ok fs3 =>
      simp only [hc, Option.some.injEq, Prod.mk.injEq] at h
      rw [← h.1, ← h.2]
      exact ⟨Or.inr rfl,
        removeAll_download_stat_file fs fs1 fs2 fs3 tempDir _ hm hd
          (fun p c hs => (mkdirAll_stat_file _ _ _ hc p c).mp hs)⟩

/-- Witness of C5 as amended, on `freshFS`: nothing is in the way of `docs_content`, so it is
made and the error is the one of the walk. -/
theorem copyMarkdownFiles_empty_archive_witness :
    ∃ fs3,
      copyMarkdownFiles 4 ["work"] ⟨some sampleTempDir, some [80, 75], some []⟩ freshFS =
        some (.error (.walking .notExist), removeAll fs3 sampleTempDir) ∧
      stat fs3 (join ["work"] "docs_content") = some .dir ∧
      ∀ p, stat fs3 p = stat storedFS p ∨ (stat storedFS p = none ∧ stat fs3 p = some .dir) :=
  (copyMarkdownFiles_empty_archive 4 ["work"] sampleTempDir [80, 75] freshFS tempFS storedFS
    (by decide) (by decide)).2.1
    (by
      intro q hq c hs
      have hq' : q <+: ["work", "docs_content"] := hq
      have hmem := stat_file_mem storedFS q c hs
      simp only [storedFS, tempFS, freshFS, List.mem_cons, Prod.mk.injEq, reduceCtorEq, and_false,
        List.mem_singleton, or_false, List.not_mem_nil] at hmem
      rcases hmem with ⟨rfl, -⟩ | ⟨rfl, -⟩ <;> exact absurd hq' (by decide))

/-- Counterexample to C5 as stated: for the downloaded archive with zero entries
`copyMarkdownFiles` returns the error of the walk, not success. -/
theorem copyMarkdownFiles_empty_archive_error :
    copyMarkdownFiles 4 ["work"] ⟨some sampleTempDir, some [80, 75], some []⟩ freshFS =
      some (.error (.walking .notExist),
        [(["work", "docs_content"], .dir), (["work"], .dir), (["tmp"], .dir)]) := by
  decide

/-! ### Walking a directory tree -/

theorem stat_some_mem (fs : FS) (p : Path) (name : String) (n : Node)
    (h : stat fs (p ++ [name]) = some n) : (p ++ [name], n) ∈ fs := by
  unfold stat at h
  rw [if_neg (by simp)] at h
  exact lookupNode_some_mem fs _ n h

theorem readDir_mem (fs : FS) (p : Path) (name : String) (d : Bool)
    (h : (name, d) ∈ readDir fs p) :
    (d = true → stat fs (p ++ [name]) = some .dir) ∧
      (d = false → ∃ c, stat fs (p ++ [name]) = some (.file c)) := by
  unfold readDir at h
  rw [List.mem_filterMap] at h
  obtain ⟨n, -, hn⟩ := h
  split at hn
  · rename_i hs
    simp only [Option.some.injEq, Prod.mk.injEq] at hn
    obtain ⟨rfl, rfl⟩ := hn
    exact ⟨fun _ => hs, fun h => by cases h⟩
  · rename_i c hs
    simp only [Option.some.injEq, Prod.mk.injEq] at hn
    obtain ⟨rfl, rfl⟩ := hn
    exact ⟨fun h => (by cases h), fun _ => ⟨_, hs⟩⟩
  · cases hn

theorem readDir_mem_fs (fs : FS) (p : Path) (name : String) (d : Bool)
    (h : (name, d) ∈ readDir fs p) : ∃ n, (p ++ [name], n) ∈ fs := by
  obtain ⟨h1, h2⟩ := readDir_mem fs p name d h
  cases d with
  | true => exact ⟨_, stat_some_mem fs p name _ (h1 rfl)⟩
  | false =>
    obtain ⟨c, hc⟩ := h2 rfl
    exact ⟨_, stat_some_mem fs p name _ hc⟩

theorem walkDir_entries_invariant {σ : Type} (I : σ → Prop)
    (step : Option (Except FsError Unit × σ) → String × Bool → Option (Except FsError Unit × σ))
    (entries : List (String × Bool))
    (hstep : ∀ e ∈ entries, ∀ acc, (∀ r s, acc = some (r, s) → I s) →
      ∀ r s, step acc e = some (r, s) → I s)
    (acc : Option (Except FsError Unit × σ)) (hacc : ∀ r s, acc = some (r, s) → I s) :
    ∀ r s, entries.foldl step acc = some (r, s) → I s := by
  induction entries generalizing acc with
  | nil =>
    intro r s h
    exact hacc r s h
  | cons e rest ih =>
    intro r s h
    rw [List.foldl_cons] at h
    exact ih (fun e' he' => hstep e' (List.mem_cons_of_mem _ he')) (step acc e)
      (hstep e (List.mem_cons_self _ _) acc hacc) r s h

/-- An invariant of the state is kept by a walk when the callback keeps it on every entry
the walk can reach. -/
theorem walkDir_invariant {σ : Type} (view : σ → FS)
    (fn : Path → Bool → σ → Except FsError Unit × σ) (I : σ → Prop) (V : Path → Bool → Prop)
    (hfn : ∀ p d s, I s → V p d → I (fn p d s).2)
    (hchild : ∀ p s name d, I s → V p true → (name, d) ∈ readDir (view s) p →
      V (p ++ [name]) d) :
    ∀ (fuel : Nat) (p : Path) (d : Bool) (s : σ) (r : Except FsError Unit) (s' : σ),
      I s → V p d → walkDir view fn fuel p d s = some (r, s') → I s' := by
  intro fuel
  induction fuel with
  | zero =>
    intro p d s r s' _ _ h
    simp [walkDir] at h
  | succ fuel ih =>
    intro p d s r s' hI hV h
    rw [walkDir] at h
    have h1 := hfn p d s hI hV
    cases hf : fn p d s with
    | mk r1 s1 =>
      rw [hf] at h h1
      simp only at h1
      cases r1 with
      | error e =>
        simp only [Option.some.injEq, Prod.mk.injEq] at h
        rw [← h.2]
        exact h1
      | ok u =>
        simp only at h
        cases d with
        | false =>
          simp only [Bool.false_eq_true, if_false, Option.some.injEq, Prod.mk.injEq] at h
          rw [← h.2]
          exact h1
        | true =>
          simp only [if_true] at h
          refine walkDir_entries_invariant I _ (readDir (view s1) p) ?_ _ ?_ r s' h
          · intro e he acc hacc r2 s2 hstep
            cases acc with
            | none => simp at hstep
            | some a =>
              obtain ⟨ra, sa⟩ := a
              cases ra with
              | error e' =>
                simp only [Option.some.injEq, Prod.mk.injEq] at hstep
                rw [← hstep.2]
                exact hacc _ _ rfl
              | ok u' =>
                simp only at hstep
                exact ih (p ++ [e.1]) e.2 sa r2 s2 (hacc _ _ rfl)
                  (hchild p s1 e.1 e.2 h1 hV he) hstep
          · intro r2 s2 h2
            simp only [Option.some.injEq, Prod.mk.injEq] at h2
            rw [← h2.2]
            exact h1

theorem walkDirRoot_noop {σ : Type} (view : σ → FS)
    (fn : Path → Bool → σ → Except FsError Unit × σ) (root : Path) (s0 : σ)
    (hnoop : ∀ p d, root <+: p → (d = false → ∃ c, stat (view s0) p = some (.file c)) →
      (fn p d s0).2 = s0)
    (fuel : Nat) (r : Except FsError Unit) (s' : σ)
    (h : walkDirRoot view fn fuel root s0 = some (r, s')) : s' = s0 := by
  have hwalk := walkDir_invariant view fn (fun s => s = s0)
    (fun p d => root <+: p ∧ (d = false → ∃ c, stat (view s0) p = some (.file c)))
    (by
      intro p d s hs hv
      subst hs
      exact hnoop p d hv.1 hv.2)
    (by
      intro p s name d hs hv hmem
      subst hs
      refine ⟨List.IsPrefix.trans hv.1 (List.prefix_append _ _), ?_⟩
      exact (readDir_mem (view s) p name d hmem).2)
  unfold walkDirRoot at h
  split at h
  · simp only [Option.some.injEq, Prod.mk.injEq] at h
    exact h.2.symm
  · exact hwalk fuel root true s0 r s' rfl ⟨List.prefix_refl _, fun hd => by cases hd⟩ h
  · rename_i c hc
    exact hwalk fuel root false s0 r s' rfl ⟨List.prefix_refl _, fun _ => ⟨c, hc⟩⟩ h

/-! ### Paths that end in ".md" or ".mdx" -/

theorem renderPath_append_last (p : Path) (c : String) :
    renderPath (p ++ [c]) = p.flatMap (fun piece => '/' :: piece.data) ++ '/' :: c.data := by
  cases p with
  | nil => simp [renderPath]
  | cons a rest => simp [renderPath, List.flatMap_append]

theorem isSuffixOf_append_slash (s A B : List Char) (hs : '/' ∉ s) :
    s.isSuffixOf (A ++ '/' :: B) = s.isSuffixOf B := by
  rw [Bool.eq_iff_iff, List.isSuffixOf_iff_suffix, List.isSuffixOf_iff_suffix]
  constructor
  · intro h
    have h2 : ('/' :: B) <:+ (A ++ '/' :: B) := List.suffix_append _ _
    rcases List.suffix_or_suffix_of_suffix h h2 with h3 | h3
    · rcases List.suffix_cons_iff.mp h3 with h4 | h4
      · rw [h4] at hs
        exact absurd (List.mem_cons_self _ _) hs
      · exact h4
    · exact absurd (h3.mem (List.mem_cons_self _ _)) hs
  · intro h
    exact List.IsSuffix.trans h (List.IsSuffix.trans (List.suffix_cons _ _) (List.suffix_append _ _))

theorem isMarkdown_append_last (p : Path) (c : String) :
    isMarkdown (p ++ [c]) = (".md".data.isSuffixOf c.data || ".mdx".data.isSuffixOf c.data) := by
  unfold isMarkdown hasSuffix
  rw [renderPath_append_last, isSuffixOf_append_slash _ _ _ (by decide),
    isSuffixOf_append_slash _ _ _ (by decide)]

theorem isMarkdown_docs_zip (tempDir : Path) : isMarkdown (tempDir ++ ["docs.zip"]) = false := by
  rw [isMarkdown_append_last]
  decide

/-! ### Archives without documentation files -/

theorem extractEntries_no_markdown (tempDir : Path) (files : List ZipEntry)
    (hfiles : ∀ f ∈ files, f.isDir = false → isMarkdown (join tempDir f.name) = false)
    (fs fs' : FS) (r : Except CopyError Unit) (h : extractEntries tempDir files fs = (r, fs'))
    (p : Path) (c : List Nat) : stat fs' p = some (.file c) ↔ stat fs p = some (.file c) := by
  induction files generalizing fs with
  | nil =>
    simp only [extractEntries, Prod.mk.injEq] at h
    rw [h.2]
  | cons f rest ih =>
    rw [extractEntries] at h
    have hrest : ∀ g ∈ rest, g.isDir = false → isMarkdown (join tempDir g.name) = false :=
      fun g hg => hfiles g (List.mem_cons_of_mem _ hg)
    unfold extractEntry at h
    cases hd : f.isDir with
    | true =>
      simp only [hd, if_true] at h
      cases hm : mkdirAll fs (join tempDir f.name) with
      | error e =>
        simp only [hm, Prod.mk.injEq] at h
        rw [h.2]
      | ok fs1 =>
        simp only [hm] at h
        rw [ih hrest fs1 h]
        exact mkdirAll_stat_file fs fs1 _ hm p c
    | false =>
      have hmd := hfiles f (List.mem_cons_self _ _) hd
      simp only [hd, hmd, Bool.false_eq_true, if_false] at h
      exact ih hrest fs h

theorem noMarkdownUnder_of_files (fs fs' : FS) (root : Path)
    (h : ∀ p c, stat fs' p = some (.file c) → stat fs p = some (.file c))
    (hno : NoMarkdownUnder fs root) : NoMarkdownUnder fs' root :=
  fun p c hp hs => hno p c hp (h p c hs)

theorem copyVisit_noop (root contentDir : Path) (fs : FS) (hno : NoMarkdownUnder fs root)
    (p : Path) (d : Bool) (hp : root <+: p) (hd : d = false → ∃ c, stat fs p = some (.file c)) :
    copyVisit root contentDir p d fs = (.ok (), fs) := by
  unfold copyVisit
  cases d with
  | true => simp
  | false =>
    obtain ⟨c, hc⟩ := hd rfl
    have hmd := hno p c hp hc
    unfold isMarkdown at hmd
    simp [hmd]

theorem collectVisit_noop (fs : FS) (root : Path) (hno : NoMarkdownUnder fs root)
    (p : Path) (d : Bool) (hp : root <+: p) (hd : d = false → ∃ c, stat fs p = some (.file c))
    (l : List Path) : collectVisit p d l = (.ok (), l) := by
  unfold collectVisit
  cases d with
  | true => simp
  | false =>
    obtain ⟨c, hc⟩ := hd rfl
    have hmd := hno p c hp hc
    unfold isMarkdown at hmd
    simp [hmd]

theorem copyMarkdownBody_no_markdown (fuel : Nat) (docsDir tempDir : Path)
    (files : List ZipEntry) (fs : FS)
    (hfiles : ∀ f ∈ files, f.isDir = false → isMarkdown (join tempDir f.name) = false)
    (hroot : ∀ first ∈ files.head?, NoMarkdownUnder fs (join tempDir first.name))
    (r : Except CopyError Path) (fs' : FS)
    (h : copyMarkdownBody fuel docsDir tempDir files fs = some (r, fs')) :
    (∀ p c, stat fs' p = some (.file c) ↔ stat fs p = some (.file c)) ∧
      (∀ dir, r = .ok dir → dir = join docsDir "docs_content") := by
  cases files with
  | nil =>
    rw [copyMarkdownBody_nil] at h
    cases hm : mkdirAll fs (join docsDir "docs_content") with
    | error e =>
      simp only [hm, Option.some.injEq, Prod.mk.injEq] at h
      rw [← h.1, ← h.2]
      exact ⟨fun _ _ => Iff.rfl, fun _ hd => by cases hd⟩
    | ok fs2 =>
      simp only [hm, Option.some.injEq, Prod.mk.injEq] at h
      rw [← h.1, ← h.2]
      exact ⟨fun p c => mkdirAll_stat_file fs fs2 _ hm p c, fun _ hd => by cases hd⟩
  | cons first others =>
    have hno := hroot first (by simp)
    unfold copyMarkdownBody at h
    rw [extractLoop_zero, extractAll] at h
    cases he : extractEntries tempDir others fs with
    | mk re fs1 =>
      have h1 := extractEntries_no_markdown tempDir others
        (fun g hg => hfiles g (List.mem_cons_of_mem _ hg)) fs fs1 re he
      rw [he] at h
      cases re with
      | error e =>
        simp only [Option.some.injEq, Prod.mk.injEq] at h
        rw [← h.1, ← h.2]
        exact ⟨h1, fun _ hd => by cases hd⟩
      | ok u =>
        simp only at h
        cases hm : mkdirAll fs1 (join docsDir "docs_content") with
        | error e =>
          simp only [hm, Option.some.injEq, Prod.mk.injEq] at h
          rw [← h.1, ← h.2]
          exact ⟨h1, fun _ hd => by cases hd⟩
        | ok fs2 =>
          simp only [hm] at h
          have h2 : ∀ p c, stat fs2 p = some (.file c) ↔ stat fs p = some (.file c) :=
            fun p c => (mkdirAll_stat_file fs1 fs2 _ hm p c).trans (h1 p c)
          have hno2 : NoMarkdownUnder fs2 (join tempDir first.name) :=
            noMarkdownUnder_of_files fs fs2 _ (fun p c => (h2 p c).mp) hno
          cases hw : walkDirRoot id (copyVisit (join tempDir first.name)
              (join docsDir "docs_content")) fuel (join tempDir first.name) fs2 with
          | none => simp [hw] at h
          | some w =>
            obtain ⟨rw', fs3⟩ := w
            have h3 : fs3 = fs2 := walkDirRoot_noop id _ (join tempDir first.name) fs2
              (fun p d hp hd => by
                rw [copyVisit_noop _ _ fs2 hno2 p d hp hd]) fuel rw' fs3 hw
            subst h3
            rw [hw] at h
            cases rw' with
            | error e =>
              simp only [Option.some.injEq, Prod.mk.injEq] at h
              rw [← h.1, ← h.2]
              exact ⟨h2, fun _ hd => by cases hd⟩
            | ok u' =>
              simp only [Option.some.injEq, Prod.mk.injEq] at h
              rw [← h.1, ← h.2]
              refine ⟨h2, fun dir hd => ?_⟩
              simp only [Except.ok.injEq] at hd
              exact hd.symm

theorem noMarkdownUnder_start (fs fs1 fs2 : FS) (tempDir root : Path)
    (fetched : Option (List Nat)) (hm : mkdir fs tempDir = .ok fs1)
    (hd : downloadFile fetched (join tempDir "docs.zip") fs1 = some fs2)
    (h : NoMarkdownUnder fs root) : NoMarkdownUnder fs2 root := by
  intro p c hp hs
  rcases download_stat_file fs fs1 fs2 tempDir fetched hm hd p c hs with h1 | h1
  · exact h p c hp h1
  · rw [h1]
    exact isMarkdown_docs_zip tempDir

theorem copyMarkdownFiles_no_markdown (fuel : Nat) (docsDir tempDir : Path) (bytes : List Nat)
    (files : List ZipEntry) (fs : FS)
    (hfiles : ∀ f ∈ files, f.isDir = false → isMarkdown (join tempDir f.name) = false)
    (hroot : ∀ first ∈ files.head?, NoMarkdownUnder fs (join tempDir first.name))
    (r : Except CopyError Path) (fs' : FS)
    (h : copyMarkdownFiles fuel docsDir ⟨some tempDir, some bytes, some files⟩ fs = some (r, fs')) :
    (∀ p c, stat fs' p = some (.file c) → stat fs p = some (.file c)) ∧
      (∀ dir, r = .ok dir → dir = join docsDir "docs_content") := by
  unfold copyMarkdownFiles at h
  simp only at h
  cases hm : mkdir fs tempDir with
  | error e =>
    simp only [hm, Option.some.injEq, Prod.mk.injEq] at h
    rw [← h.1, ← h.2]
    exact ⟨fun _ _ hs => hs, fun _ hd => by cases hd⟩
  | ok fs1 =>
    simp only [hm] at h
    cases hd : downloadFile (some bytes) (join tempDir "docs.zip") fs1 with
    | none =>
      simp only [hd, Option.some.injEq, Prod.mk.injEq] at h
      rw [← h.1, ← h.2]
      refine ⟨fun p c hs => ?_, fun _ hd => by cases hd⟩
      exact mkdir_stat_file fs fs1 tempDir hm p c (removeAll_stat_file fs1 tempDir p c hs).1
    | some fs2 =>
      simp only [hd] at h
      cases hb : copyMarkdownBody fuel docsDir tempDir files fs2 with
      | none => simp [hb] at h
      | some b =>
        obtain ⟨rb, fs3⟩ := b
        obtain ⟨hb1, hb2⟩ := copyMarkdownBody_no_markdown fuel docsDir tempDir files fs2 hfiles
          (fun first hfirst => noMarkdownUnder_start fs fs1 fs2 tempDir _ _ hm hd
            (hroot first hfirst)) rb fs3 hb
        simp only [hb, Option.some.injEq, Prod.mk.injEq] at h
        rw [← h.1, ← h.2]
        exact ⟨removeAll_download_stat_file fs fs1 fs2 fs3 tempDir _ hm hd
          (fun p c hs => (hb1 p c).mp hs), hb2⟩

theorem listMarkdownFiles_nil (fuel : Nat) (fs : FS) (dir : Path) (hno : NoMarkdownUnder fs dir)
    (l : List Path) (h : listMarkdownFiles fuel fs dir = some (.ok l)) : l = [] := by
  unfold listMarkdownFiles at h
  cases hw : walkDirRoot (fun _ => fs) collectVisit fuel dir [] with
  | none => simp [hw] at h
  | some w =>
    obtain ⟨r, l'⟩ := w
    have hl : l' = [] := walkDirRoot_noop (fun _ : List Path => fs) collectVisit dir []
      (fun p d hp hd => by rw [collectVisit_noop fs dir hno p d hp hd]) fuel r l' hw
    rw [hw] at h
    cases r with
    | error e => simp at h
    | ok u =>
      simp only [Option.some.injEq, Except.ok.injEq] at h
      rw [← h, hl]

theorem main_no_markdown (fuel : Nat) (srv : Server) (docsDir tempDir : Path) (bytes : List Nat)
    (files : List ZipEntry) (fs : FS)
    (hfiles : ∀ f ∈ files, f.isDir = false → isMarkdown (join tempDir f.name) = false)
    (hroot : ∀ first ∈ files.head?, NoMarkdownUnder fs (join tempDir first.name))
    (hcontent : NoMarkdownUnder fs (join docsDir "docs_content"))
    (r : Except Fatal Tally) (trace : List Call) (fs' : FS)
    (h : main fuel ⟨srv, some docsDir, ⟨some tempDir, some bytes, some files⟩⟩ fs =
      some (r, trace, fs')) :
    trace = (initKnowledge srv []).2 ∧ (∀ tally, r = .ok tally → tally = ⟨0, 0⟩) ∧
      (∀ p c, stat fs' p = some (.file c) → stat fs p = some (.file c)) := by
  unfold main at h
  cases hi : initKnowledge srv [] with
  | mk ri trace0 =>
    rw [hi] at h
    cases ri with
    | error e =>
      simp only [Option.some.injEq, Prod.mk.injEq] at h
      obtain ⟨h1, h2, h3⟩ := h
      rw [← h1, ← h2, ← h3]
      exact ⟨rfl, fun _ ht => (by cases ht), fun _ _ hs => hs⟩
    | ok knowledgeID =>
      simp only at h
      cases hc : copyMarkdownFiles fuel docsDir ⟨some tempDir, some bytes, some files⟩ fs with
      | none => simp [hc] at h
      | some cres =>
        obtain ⟨rc, fs1⟩ := cres
        obtain ⟨hc1, hc2⟩ := copyMarkdownFiles_no_markdown fuel docsDir tempDir bytes files fs
          hfiles hroot rc fs1 hc
        rw [hc] at h
        cases rc with
        | error e =>
          simp only [Option.some.injEq, Prod.mk.injEq] at h
          obtain ⟨h1, h2, h3⟩ := h
          rw [← h1, ← h2, ← h3]
          exact ⟨rfl, fun _ ht => (by cases ht), hc1⟩
        | ok dir =>
          simp only at h
          have hdir := hc2 dir rfl
          subst hdir
          have hno1 : NoMarkdownUnder fs1 (join docsDir "docs_content") :=
            noMarkdownUnder_of_files fs fs1 _ hc1 hcontent
          cases hl : listMarkdownFiles fuel fs1 (join docsDir "docs_content") with
          | none => simp [hl] at h
          | some lres =>
            rw [hl] at h
            cases lres with
            | error e =>
              simp only [Option.some.injEq, Prod.mk.injEq] at h
              obtain ⟨h1, h2, h3⟩ := h
              rw [← h1, ← h2, ← h3]
              exact ⟨rfl, fun _ ht => (by cases ht), hc1⟩
            | ok l =>
              have hnil := listMarkdownFiles_nil fuel fs1 _ hno1 l hl
              subst hnil
              simp only [uploadLoop, Option.some.injEq, Prod.mk.injEq] at h
              obtain ⟨h1, h2, h3⟩ := h
              rw [← h1, ← h2, ← h3]
              refine ⟨rfl, fun tally ht => ?_, hc1⟩
              simp only [Except.ok.injEq] at ht
              exact ht.symm

/-! ### Paths built by `filepath.Rel` and `filepath.Join` -/

theorem rel_append (root suffix : Path) :
    rel root (root ++ suffix) = if suffix = [] then ["."] else suffix := by
  induction root with
  | nil =>
    cases suffix with
    | nil => rfl
    | cons t ts => simp [rel]
  | cons b bs ih =>
    simp only [List.cons_append, rel, if_true]
    exact ih

theorem cleanStep_proper (p : Path) (c : String) (hc : properName c) :
    cleanStep p c = p ++ [c] := by
  unfold cleanStep
  rw [if_neg (by
    rintro (h | h)
    · exact hc.1 h
    · exact hc.2.1 h), if_neg hc.2.2]

theorem joinPieces_proper (base suffix : Path) (hs : ProperPath suffix) :
    joinPieces base suffix = base ++ suffix := by
  induction suffix generalizing base with
  | nil => simp [joinPieces]
  | cons c rest ih =>
    have hc : properName c := hs c (List.mem_cons_self _ _)
    have hrest : ProperPath rest := fun d hd => hs d (List.mem_cons_of_mem _ hd)
    have h := ih (base ++ [c]) hrest
    unfold joinPieces at h ⊢
    rw [List.foldl_cons, cleanStep_proper base c hc, h]
    simp

theorem joinPieces_rel (root contentDir suffix : Path) (hs : ProperPath suffix) :
    joinPieces contentDir (rel root (root ++ suffix)) = contentDir ++ suffix := by
  rw [rel_append]
  by_cases h : suffix = []
  · rw [if_pos h, h]
    simp [joinPieces, cleanStep]
  · rw [if_neg h]
    exact joinPieces_proper contentDir suffix hs

theorem properPath_dropLast (p : Path) (h : ProperPath p) : ProperPath p.dropLast :=
  fun c hc => h c (List.dropLast_subset p hc)

theorem properPath_cleanStep (p : Path) (piece : String) (h : ProperPath p) :
    ProperPath (cleanStep p piece) := by
  unfold cleanStep
  split
  · exact h
  · rename_i h1
    split
    · exact properPath_dropLast p h
    · rename_i h2
      intro c hc
      rcases List.mem_append.mp hc with hc | hc
      · exact h c hc
      · simp only [List.mem_singleton] at hc
        subst hc
        exact ⟨fun he => h1 (Or.inl he), fun he => h1 (Or.inr he), h2⟩

theorem properPath_joinPieces (base : Path) (pieces : List String) (h : ProperPath base) :
    ProperPath (joinPieces base pieces) := by
  induction pieces generalizing base with
  | nil => exact h
  | cons c rest ih =>
    unfold joinPieces
    rw [List.foldl_cons]
    exact ih (cleanStep base c) (properPath_cleanStep base c h)

theorem properPath_join (base : Path) (name : String) (h : ProperPath base) :
    ProperPath (join base name) :=
  properPath_joinPieces base _ h

/-! ### What the operations change -/

theorem properFS_cons (p : Path) (n : Node) (fs : FS) (hp : ProperPath p) (h : ProperFS fs) :
    ProperFS ((p, n) :: fs) := by
  intro e he
  rcases List.mem_cons.mp he with he | he
  · rw [he]
    exact hp
  · exact h e he

theorem mkdirAllFrom_proper (rest : List String) (pre : Path) (fs fs' : FS)
    (hfs : ProperFS fs) (hp : ProperPath (pre ++ rest))
    (h : mkdirAllFrom fs pre rest = .ok fs') : ProperFS fs' := by
  induction rest generalizing fs pre with
  | nil =>
    simp only [mkdirAllFrom, Except.ok.injEq] at h
    rw [← h]
    exact hfs
  | cons c rest ih =>
    have hp' : ProperPath ((pre ++ [c]) ++ rest) := by
      simpa using hp
    have hpc : ProperPath (pre ++ [c]) := fun d hd => hp' d (List.mem_append_left _ hd)
    rw [mkdirAllFrom] at h
    split at h
    · exact ih _ _ hfs hp' h
    · cases h
    · exact ih _ _ (properFS_cons _ _ _ hpc hfs) hp' h

theorem mkdirAll_proper (fs fs' : FS) (p : Path) (hfs : ProperFS fs) (hp : ProperPath p)
    (h : mkdirAll fs p = .ok fs') : ProperFS fs' :=
  mkdirAllFrom_proper p [] fs fs' hfs (by simpa using hp) h

theorem mkdirAll_stat_some (fs fs' : FS) (q : Path) (h : mkdirAll fs q = .ok fs') (p : Path)
    (n : Node) (hs : stat fs p = some n) : stat fs' p = some n := by
  rcases mkdirAllFrom_stat q [] fs fs' h p with h1 | ⟨h1, -⟩
  · rw [h1]
    exact hs
  · rw [h1] at hs
    cases hs

theorem copyFile_cases (src dest : Path) (fs fs' : FS) (r : Except FsError Unit)
    (h : copyFile src dest fs = (r, fs')) :
    fs' = fs ∨ (stat fs dest ≠ some .dir ∧
      (fs' = (dest, .file []) :: fs ∨ ∃ b, fs' = (dest, .file b) :: (dest, .file []) :: fs)) := by
  unfold copyFile at h
  split at h
  · simp only [Prod.mk.injEq] at h
    exact Or.inl h.2.symm
  · split at h
    · simp only [Prod.mk.injEq] at h
      exact Or.inl h.2.symm
    · rename_i fs1 hc
      obtain ⟨hfs1, hnd⟩ := createTrunc_ok fs fs1 dest hc
      subst hfs1
      right
      refine ⟨hnd, ?_⟩
      split at h
      · simp only [Prod.mk.injEq] at h
        exact Or.inr ⟨_, h.2.symm⟩
      · simp only [Prod.mk.injEq] at h
        exact Or.inl h.2.symm
      · simp only [Prod.mk.injEq] at h
        exact Or.inl h.2.symm

/-! ### Only documentation files are written -/

theorem onlyMarkdownWritten_cons (fs0 s : FS) (p : Path) (b : List Nat)
    (h : OnlyMarkdownWritten fs0 s) (hp : isMarkdown p = true) :
    OnlyMarkdownWritten fs0 ((p, .file b) :: s) := by
  intro q c hq
  rcases stat_cons_file _ _ _ _ _ hq with ⟨hpq, -⟩ | h1
  · right
    rw [← hpq]
    exact hp
  · exact h q c h1

theorem onlyMarkdownWritten_mkdirAll (fs0 s s1 : FS) (q : Path)
    (h : OnlyMarkdownWritten fs0 s) (hm : mkdirAll s q = .ok s1) :
    OnlyMarkdownWritten fs0 s1 :=
  fun p c hp => h p c ((mkdirAll_stat_file s s1 q hm p c).mp hp)

theorem walkInv_write (fs0 : FS) (contentDir dest : Path) (s : FS) (b : List Nat)
    (h : WalkInv fs0 contentDir s) (hmd : isMarkdown dest = true) (hp : ProperPath dest)
    (hne : dest ≠ contentDir) : WalkInv fs0 contentDir ((dest, .file b) :: s) :=
  ⟨onlyMarkdownWritten_cons fs0 s dest b h.1 hmd, properFS_cons _ _ _ hp h.2.1, by
    rw [stat_cons_ne _ _ _ _ hne]
    exact h.2.2⟩

theorem copyVisit_walkInv (fs0 : FS) (root contentDir : Path) (hcd : ProperPath contentDir)
    (s : FS) (hI : WalkInv fs0 contentDir s) (suffix : Path) (hs : ProperPath suffix) (d : Bool) :
    WalkInv fs0 contentDir (copyVisit root contentDir (root ++ suffix) d s).2 := by
  unfold copyVisit
  by_cases hcond : (!d && (hasSuffix (root ++ suffix) ".md" || hasSuffix (root ++ suffix) ".mdx"))
      = true
  · rw [if_pos hcond]
    dsimp only
    rw [joinPieces_rel root contentDir suffix hs]
    have hmdp : isMarkdown (root ++ suffix) = true := by
      unfold isMarkdown
      simp only [Bool.and_eq_true] at hcond
      exact hcond.2
    have hdest : ProperPath (contentDir ++ suffix) := by
      intro c hc
      rcases List.mem_append.mp hc with hc | hc
      · exact hcd c hc
      · exact hs c hc
    cases hm : mkdirAll s (parentDir (contentDir ++ suffix)) with
    | error e => exact hI
    | ok s1 =>
      have hI1 : WalkInv fs0 contentDir s1 :=
        ⟨onlyMarkdownWritten_mkdirAll fs0 s s1 _ hI.1 hm,
          mkdirAll_proper s s1 _ hI.2.1 (properPath_dropLast _ hdest) hm,
          mkdirAll_stat_some s s1 _ hm contentDir .dir hI.2.2⟩
      simp only
      cases hcf : copyFile (root ++ suffix) (contentDir ++ suffix) s1 with
      | mk r s2 =>
        simp only
        rcases copyFile_cases _ _ _ _ _ hcf with h | ⟨hnd, h⟩
        · rw [h]
          exact hI1
        · have hne : contentDir ++ suffix ≠ contentDir := by
            intro heq
            rw [heq] at hnd
            exact hnd hI1.2.2
          have hsuf : suffix ≠ [] := by
            intro heq
            apply hne
            rw [heq]
            simp
          have hmdd : isMarkdown (contentDir ++ suffix) = true := by
            rw [← List.dropLast_append_getLast hsuf] at hmdp ⊢
            rw [← List.append_assoc, isMarkdown_append_last] at hmdp ⊢
            exact hmdp
          rcases h with h | ⟨b, h⟩
          · rw [h]
            exact walkInv_write fs0 contentDir _ s1 [] hI1 hmdd hdest hne
          · rw [h]
            exact walkInv_write fs0 contentDir _ _ b
              (walkInv_write fs0 contentDir _ s1 [] hI1 hmdd hdest hne) hmdd hdest hne
  · rw [if_neg hcond]
    exact hI

theorem extractEntries_written (tempDir : Path) (htemp : ProperPath tempDir) (fs0 : FS)
    (files : List ZipEntry) (fs fs' : FS) (r : Except CopyError Unit)
    (hI : OnlyMarkdownWritten fs0 fs ∧ ProperFS fs)
    (h : extractEntries tempDir files fs = (r, fs')) :
    OnlyMarkdownWritten fs0 fs' ∧ ProperFS fs' := by
  induction files generalizing fs with
  | nil =>
    simp only [extractEntries, Prod.mk.injEq] at h
    rw [← h.2]
    exact hI
  | cons f rest ih =>
    rw [extractEntries] at h
    have hp : ProperPath (join tempDir f.name) := properPath_join tempDir f.name htemp
    unfold extractEntry at h
    cases hd : f.isDir with
    | true =>
      simp only [hd, if_true] at h
      cases hm : mkdirAll fs (join tempDir f.name) with
      | error e =>
        simp only [hm, Prod.mk.injEq] at h
        rw [← h.2]
        exact hI
      | ok fs1 =>
        simp only [hm] at h
        exact ih fs1 ⟨onlyMarkdownWritten_mkdirAll fs0 fs fs1 _ hI.1 hm,
          mkdirAll_proper fs fs1 _ hI.2 hp hm⟩ h
    | false =>
      simp only [hd, Bool.false_eq_true, if_false] at h
      cases hmd : isMarkdown (join tempDir f.name) with
      | false =>
        simp only [hmd, Bool.false_eq_true, if_false] at h
        exact ih fs hI h
      | true =>
        simp only [hmd, if_true] at h
        cases hc : createTrunc fs (join tempDir f.name) with
        | error e =>
          simp only [hc, Prod.mk.injEq] at h
          rw [← h.2]
          exact hI
        | ok fs1 =>
          obtain ⟨hfs1, -⟩ := createTrunc_ok fs fs1 _ hc
          subst hfs1
          have hI1 : OnlyMarkdownWritten fs0 ((join tempDir f.name, .file []) :: fs) ∧
              ProperFS ((join tempDir f.name, .file []) :: fs) :=
            ⟨onlyMarkdownWritten_cons fs0 fs _ [] hI.1 hmd, properFS_cons _ _ _ hp hI.2⟩
          simp only [hc] at h
          cases hdata : f.data with
          | openFails =>
            simp only [hdata, Prod.mk.injEq] at h
            rw [← h.2]
            exact hI1
          | copyFails written =>
            simp only [hdata, Prod.mk.injEq] at h
            rw [← h.2]
            exact ⟨onlyMarkdownWritten_cons fs0 _ _ written hI1.1 hmd,
              properFS_cons _ _ _ hp hI1.2⟩
          | content bytes =>
            simp only [hdata] at h
            exact ih _ ⟨onlyMarkdownWritten_cons fs0 _ _ bytes hI1.1 hmd,
              properFS_cons _ _ _ hp hI1.2⟩ h

theorem copyMarkdownBody_written (fuel : Nat) (docsDir tempDir : Path) (files : List ZipEntry)
    (fs : FS) (hfs : ProperFS fs) (htemp : ProperPath tempDir) (hdocs : ProperPath docsDir)
    (r : Except CopyError Path) (fs' : FS)
    (h : copyMarkdownBody fuel docsDir tempDir files fs = some (r, fs')) :
    OnlyMarkdownWritten fs fs' := by
  have hstart : OnlyMarkdownWritten fs fs ∧ ProperFS fs := ⟨fun _ _ hs => Or.inl hs, hfs⟩
  cases files with
  | nil =>
    rw [copyMarkdownBody_nil] at h
    cases hm : mkdirAll fs (join docsDir "docs_content") with
    | error e =>
      simp only [hm, Option.some.injEq, Prod.mk.injEq] at h
      rw [← h.2]
      exact hstart.1
    | ok fs2 =>
      simp only [hm, Option.some.injEq, Prod.mk.injEq] at h
      rw [← h.2]
      exact onlyMarkdownWritten_mkdirAll fs fs fs2 _ hstart.1 hm
  | cons first others =>
    unfold copyMarkdownBody at h
    rw [extractLoop_zero, extractAll] at h
    cases he : extractEntries tempDir others fs with
    | mk re fs1 =>
      have h1 := extractEntries_written tempDir htemp fs others fs fs1 re hstart he
      rw [he] at h
      cases re with
      | error e =>
        simp only [Option.some.injEq, Prod.mk.injEq] at h
        rw [← h.2]
        exact h1.1
      | ok u =>
        simp only at h
        have hcd : ProperPath (join docsDir "docs_content") := properPath_join _ _ hdocs
        cases hm : mkdirAll fs1 (join docsDir "docs_content") with
        | error e =>
          simp only [hm, Option.some.injEq, Prod.mk.injEq] at h
          rw [← h.2]
          exact h1.1
        | ok fs2 =>
          simp only [hm] at h
          have hI2 : WalkInv fs (join docsDir "docs_content") fs2 :=
            ⟨onlyMarkdownWritten_mkdirAll fs fs1 fs2 _ h1.1 hm,
              mkdirAll_proper fs1 fs2 _ h1.2 hcd hm, mkdirAll_ok_stat fs1 fs2 _ hm⟩
          have hwalk := walkDir_invariant id
            (copyVisit (join tempDir first.name) (join docsDir "docs_content"))
            (WalkInv fs (join docsDir "docs_content"))
            (fun p _ => ∃ suffix, p = join tempDir first.name ++ suffix ∧ ProperPath suffix)
            (by
              rintro p d s hs ⟨suffix, rfl, hsuf⟩
              exact copyVisit_walkInv fs _ _ hcd s hs suffix hsuf d)
            (by
              rintro p s name d hs ⟨suffix, rfl, hsuf⟩ hmem
              refine ⟨suffix ++ [name], by simp, ?_⟩
              obtain ⟨n, hn⟩ := readDir_mem_fs (id s) _ name d hmem
              have hpp : ProperPath (join tempDir first.name ++ suffix ++ [name]) :=
                hs.2.1 _ hn
              intro c hc
              rcases List.mem_append.mp hc with hc | hc
              · exact hsuf c hc
              · exact hpp c (List.mem_append_right _ hc))
          have hroot : ∃ suffix, join tempDir first.name = join tempDir first.name ++ suffix ∧
              ProperPath suffix := ⟨[], by simp, fun _ hc => by cases hc⟩
          cases hw : walkDirRoot id (copyVisit (join tempDir first.name)
              (join docsDir "docs_content")) fuel (join tempDir first.name) fs2 with
          | none => simp [hw] at h
          | some w =>
            obtain ⟨rw', fs3⟩ := w
            have h3 : WalkInv fs (join docsDir "docs_content") fs3 := by
              unfold walkDirRoot at hw
              split at hw
              · simp only [Option.some.injEq, Prod.mk.injEq] at hw
                rw [← hw.2]
                exact hI2
              · exact hwalk fuel _ true fs2 rw' fs3 hI2 hroot hw
              · exact hwalk fuel _ false fs2 rw' fs3 hI2 hroot hw
            rw [hw] at h
            cases rw' with
            | error e =>
              simp only [Option.some.injEq, Prod.mk.injEq] at h
              rw [← h.2]
              exact h3.1
            | ok u' =>
              simp only [Option.some.injEq, Prod.mk.injEq] at h
              rw [← h.2]
              exact h3.1

/-! ### Enough fuel: a walk that changes nothing ends -/

theorem length_le_maxDepth (fs : FS) (p : Path) (n : Node) (h : (p, n) ∈ fs) :
    p.length ≤ maxDepth fs := by
  induction fs with
  | nil => cases h
  | cons e rest ih =>
    rw [maxDepth]
    rcases List.mem_cons.mp h with he | he
    · rw [← he]
      exact Nat.le_max_left _ _
    · exact Nat.le_trans (ih he) (Nat.le_max_right _ _)

theorem foldl_fixed {α β : Type} (step : β → α → β) (b : β) (l : List α)
    (h : ∀ a ∈ l, step b a = b) : l.foldl step b = b := by
  induction l with
  | nil => rfl
  | cons a rest ih =>
    rw [List.foldl_cons, h a (List.mem_cons_self _ _)]
    exact ih (fun x hx => h x (List.mem_cons_of_mem _ hx))

theorem walkDir_noop_total {σ : Type} (view : σ → FS)
    (fn : Path → Bool → σ → Except FsError Unit × σ) (root : Path) (s0 : σ)
    (hnoop : ∀ p d, root <+: p → (d = false → ∃ c, stat (view s0) p = some (.file c)) →
      fn p d s0 = (.ok (), s0)) :
    ∀ (fuel : Nat) (p : Path) (d : Bool), root <+: p →
      (d = false → ∃ c, stat (view s0) p = some (.file c)) →
      0 < fuel → maxDepth (view s0) < fuel + p.length →
      walkDir view fn fuel p d s0 = some (.ok (), s0) := by
  intro fuel
  induction fuel with
  | zero =>
    intro p d _ _ h0 _
    exact absurd h0 (Nat.lt_irrefl 0)
  | succ fuel ih =>
    intro p d hp hd _ hdepth
    rw [walkDir, hnoop p d hp hd]
    simp only
    cases d with
    | false => simp
    | true =>
      simp only [if_true]
      apply foldl_fixed
      intro e he
      simp only
      obtain ⟨n, hn⟩ := readDir_mem_fs (view s0) p e.1 e.2 he
      have hlen := length_le_maxDepth (view s0) _ n hn
      simp only [List.length_append, List.length_singleton] at hlen
      apply ih (p ++ [e.1]) e.2 (List.IsPrefix.trans hp (List.prefix_append _ _))
        (readDir_mem (view s0) p e.1 e.2 he).2
      · omega
      · simp only [List.length_append, List.length_singleton]
        omega

theorem walkDirRoot_noop_total {σ : Type} (view : σ → FS)
    (fn : Path → Bool → σ → Except FsError Unit × σ) (root : Path) (s0 : σ)
    (hnoop : ∀ p d, root <+: p → (d = false → ∃ c, stat (view s0) p = some (.file c)) →
      fn p d s0 = (.ok (), s0))
    (fuel : Nat) (hfuel : maxDepth (view s0) < fuel) :
    walkDirRoot view fn fuel root s0 =
      some (if stat (view s0) root = none then .error .notExist else .ok (), s0) := by
  have h0 : 0 < fuel := Nat.lt_of_le_of_lt (Nat.zero_le _) hfuel
  have hd : maxDepth (view s0) < fuel + root.length := Nat.lt_of_lt_of_le hfuel (Nat.le_add_right _ _)
  unfold walkDirRoot
  split
  · rename_i hs
    simp [hs]
  · rename_i hs
    rw [walkDir_noop_total view fn root s0 hnoop fuel root true (List.prefix_refl _)
      (fun h => by cases h) h0 hd]
    simp [hs]
  · rename_i c hs
    rw [walkDir_noop_total view fn root s0 hnoop fuel root false (List.prefix_refl _)
      (fun _ => ⟨c, hs⟩) h0 hd]
    simp [hs]

theorem listMarkdownFiles_total (fs : FS) (dir : Path) (hno : NoMarkdownUnder fs dir)
    (fuel : Nat) (hfuel : maxDepth fs < fuel) :
    listMarkdownFiles fuel fs dir =
      some (if stat fs dir = none then .error .notExist else .ok []) := by
  unfold listMarkdownFiles
  rw [walkDirRoot_noop_total (fun _ : List Path => fs) collectVisit dir []
    (fun p d hp hd => collectVisit_noop fs dir hno p d hp hd []) fuel hfuel]
  split <;> rename_i h
  · cases h
  · simp only [Option.some.injEq, Prod.mk.injEq] at h
    split at h
    · rename_i hs
      simp only [Except.error.injEq] at h
      rw [if_pos hs, ← h.1]
    · cases h.1
  · simp only [Option.some.injEq, Prod.mk.injEq] at h
    split at h
    · cases h.1
    · rename_i hs
      rw [if_neg hs, ← h.2]

theorem copyMarkdownBody_no_markdown_total (docsDir tempDir : Path) (files : List ZipEntry)
    (fs : FS)
    (hfiles : ∀ f ∈ files, f.isDir = false → isMarkdown (join tempDir f.name) = false)
    (hroot : ∀ first ∈ files.head?, NoMarkdownUnder fs (join tempDir first.name)) :
    ∃ N result, ∀ fuel, N ≤ fuel →
      copyMarkdownBody fuel docsDir tempDir files fs = some result := by
  cases files with
  | nil =>
    cases hm : mkdirAll fs (join docsDir "docs_content") with
    | error e =>
      exact ⟨0, (.error (.creatingDocsContentDir e), fs), fun fuel _ => by
        rw [copyMarkdownBody_nil, hm]⟩
    | ok fs2 =>
      exact ⟨0, (.error (.walking .notExist), fs2), fun fuel _ => by
        rw [copyMarkdownBody_nil, hm]⟩
  | cons first others =>
    have hno := hroot first (by simp)
    unfold copyMarkdownBody
    rw [extractLoop_zero, extractAll]
    cases he : extractEntries tempDir others fs with
    | mk re fs1 =>
      have h1 := extractEntries_no_markdown tempDir others
        (fun g hg => hfiles g (List.mem_cons_of_mem _ hg)) fs fs1 re he
      cases re with
      | error e => exact ⟨0, _, fun _ _ => rfl⟩
      | ok u =>
        simp only
        cases hm : mkdirAll fs1 (join docsDir "docs_content") with
        | error e => exact ⟨0, _, fun _ _ => rfl⟩
        | ok fs2 =>
          simp only
          have h2 : ∀ p c, stat fs2 p = some (.file c) → stat fs p = some (.file c) :=
            fun p c hs => (h1 p c).mp ((mkdirAll_stat_file fs1 fs2 _ hm p c).mp hs)
          have hno2 : NoMarkdownUnder fs2 (join tempDir first.name) :=
            noMarkdownUnder_of_files fs fs2 _ h2 hno
          refine ⟨maxDepth fs2 + 1,
            (if stat fs2 (join tempDir first.name) = none then .error (.walking .notExist)
              else .ok (join docsDir "docs_content"), fs2), fun fuel hfuel => ?_⟩
          rw [walkDirRoot_noop_total id _ (join tempDir first.name) fs2
            (fun p d hp hd => copyVisit_noop _ _ fs2 hno2 p d hp hd) fuel
            (Nat.lt_of_succ_le hfuel)]
          by_cases hs : stat fs2 (join tempDir first.name) = none
          · simp [hs]
          · simp [hs]

theorem copyMarkdownFiles_no_markdown_total (docsDir tempDir : Path) (bytes : List Nat)
    (files : List ZipEntry) (fs : FS)
    (hfiles : ∀ f ∈ files, f.isDir = false → isMarkdown (join tempDir f.name) = false)
    (hroot : ∀ first ∈ files.head?, NoMarkdownUnder fs (join tempDir first.name)) :
    ∃ N result, ∀ fuel, N ≤ fuel →
      copyMarkdownFiles fuel docsDir ⟨some tempDir, some bytes, some files⟩ fs = some result := by
  unfold copyMarkdownFiles
  simp only
  cases hm : mkdir fs tempDir with
  | error e => exact ⟨0, _, fun _ _ => rfl⟩
  | ok fs1 =>
    simp only
    cases hd : downloadFile (some bytes) (join tempDir "docs.zip") fs1 with
    | none => exact ⟨0, _, fun _ _ => rfl⟩
    | some fs2 =>
      simp only
      obtain ⟨N, result, hN⟩ := copyMarkdownBody_no_markdown_total docsDir tempDir files fs2
        hfiles (fun first hfirst => noMarkdownUnder_start fs fs1 fs2 tempDir _ _ hm hd
          (hroot first hfirst))
      refine ⟨N, (result.1, removeAll result.2 tempDir), fun fuel hfuel => ?_⟩
      rw [hN fuel hfuel]

theorem main_no_markdown_total (srv : Server) (docsDir tempDir : Path) (bytes : List Nat)
    (files : List ZipEntry) (fs : FS)
    (hfiles : ∀ f ∈ files, f.isDir = false → isMarkdown (join tempDir f.name) = false)
    (hroot : ∀ first ∈ files.head?, NoMarkdownUnder fs (join tempDir first.name))
    (hcontent : NoMarkdownUnder fs (join docsDir "docs_content")) :
    ∃ N result, ∀ fuel, N ≤ fuel →
      main fuel ⟨srv, some docsDir, ⟨some tempDir, some bytes, some files⟩⟩ fs = some result := by
  obtain ⟨N, cres, hN⟩ := copyMarkdownFiles_no_markdown_total docsDir tempDir bytes files fs
    hfiles hroot
  obtain ⟨rc, fs1⟩ := cres
  obtain ⟨hc1, hc2⟩ := copyMarkdownFiles_no_markdown N docsDir tempDir bytes files fs
    hfiles hroot rc fs1 (hN N (Nat.le_refl _))
  unfold main
  cases hi : initKnowledge srv [] with
  | mk ri trace0 =>
    cases ri with
    | error e => exact ⟨0, _, fun _ _ => rfl⟩
    | ok knowledgeID =>
      simp only
      cases rc with
      | error e =>
        refine ⟨N, (.error (.copyingMarkdownFiles e), trace0, fs1), fun fuel hfuel => ?_⟩
        rw [hN fuel hfuel]
      | ok dir =>
        have hdir := hc2 dir rfl
        subst hdir
        have hno1 : NoMarkdownUnder fs1 (join docsDir "docs_content") :=
          noMarkdownUnder_of_files fs fs1 _ hc1 hcontent
        refine ⟨max N (maxDepth fs1 + 1),
          (if stat fs1 (join docsDir "docs_content") = none
            then .error (.walkingDocsContent .notExist) else .ok ⟨0, 0⟩, trace0, fs1),
          fun fuel hfuel => ?_⟩
        rw [hN fuel (Nat.le_trans (Nat.le_max_left _ _) hfuel)]
        simp only
        rw [listMarkdownFiles_total fs1 _ hno1 fuel
          (Nat.lt_of_succ_le (Nat.le_trans (Nat.le_max_right _ _) hfuel))]
        by_cases hs : stat fs1 (join docsDir "docs_content") = none
        · simp [hs]
        · simp [hs, uploadLoop]

/-! ### The extraction loop, entry by entry: what each entry does -/

theorem splitSlash_last (cs cur : List Char) (s : List Char) (hs : '/' ∉ s) :
    ∃ init c, splitSlash cs cur = init ++ [c] ∧
      s.isSuffixOf (cur.reverse ++ cs) = s.isSuffixOf c.data := by
  induction cs generalizing cur with
  | nil => exact ⟨[], String.mk cur.reverse, by simp [splitSlash], by simp⟩
  | cons x cs ih =>
    rw [splitSlash]
    by_cases hx : x = '/'
    · rw [if_pos hx]
      obtain ⟨init, c, h1, h2⟩ := ih []
      refine ⟨String.mk cur.reverse :: init, c, by rw [h1]; rfl, ?_⟩
      rw [hx, isSuffixOf_append_slash s _ _ hs, ← h2]
      simp
    · rw [if_neg hx]
      obtain ⟨init, c, h1, h2⟩ := ih (x :: cur)
      refine ⟨init, c, h1, ?_⟩
      rw [← h2]
      simp

theorem isMarkdown_join (base : Path) (name : String) (h : properName (lastPiece name)) :
    isMarkdown (join base name) = nameIsMarkdown name := by
  obtain ⟨init, c, h1, h2⟩ := splitSlash_last name.data [] ".md".data (by decide)
  obtain ⟨init', c', h1', h2'⟩ := splitSlash_last name.data [] ".mdx".data (by decide)
  have hc : init' = init ∧ c' = c := by
    rw [h1] at h1'
    have := List.append_inj' h1' rfl
    exact ⟨this.1.symm, (List.singleton_inj.mp this.2).symm⟩
  obtain ⟨-, hcc⟩ := hc
  subst hcc
  have hlast : lastPiece name = c' := by
    unfold lastPiece
    rw [h1]
    simp
  rw [hlast] at h
  have hj : join base name = joinPieces base init ++ [c'] := by
    unfold join
    rw [h1]
    unfold joinPieces
    rw [List.foldl_append, List.foldl_cons, List.foldl_nil, cleanStep_proper _ _ h]
  rw [hj, isMarkdown_append_last]
  unfold nameIsMarkdown
  simp only [List.reverse_nil, List.nil_append] at h2 h2'
  rw [h2, h2']

theorem resolveDir_ok (rest : List String) (pre : Path) (fs : FS)
    (h : ∀ q, q <+: pre ++ rest → stat fs q = some .dir) :
    resolveDir fs pre rest = .ok () := by
  induction rest generalizing pre with
  | nil => rfl
  | cons c rest ih =>
    have hpre : pre ++ [c] <+: pre ++ c :: rest := by
      refine ⟨rest, ?_⟩
      simp
    rw [resolveDir, h _ hpre]
    exact ih (pre ++ [c]) (fun q hq => h q (by simpa using hq))

theorem createTrunc_of_dirs (fs : FS) (p : Path)
    (hdirs : ∀ q, q <+: p.dropLast → stat fs q = some .dir) (hp : stat fs p ≠ some .dir) :
    createTrunc fs p = .ok ((p, .file []) :: fs) := by
  unfold createTrunc
  rw [resolveDir_ok p.dropLast [] fs (by simpa using hdirs)]
  cases hs : stat fs p with
  | none => rfl
  | some n =>
    cases n with
    | dir => exact absurd hs hp
    | file c => rfl

theorem extractLoop_directory (tempDir : Path) (i : Nat) (f : ZipEntry) (rest : List ZipEntry)
    (ed : Option Path) (fs : FS) (hdir : f.isDir = true) :
    extractLoop tempDir (i + 1) (f :: rest) ed fs =
      match mkdirAll fs (join tempDir f.name) with
      | .error e => (.error (.creatingDirectory (join tempDir f.name) e), fs)
      | .ok fs1 => extractLoop tempDir (i + 2) rest ed fs1 := by
  rw [extractLoop, if_neg (Nat.succ_ne_zero i)]
  simp only [hdir, if_true]

theorem extractLoop_skip (tempDir : Path) (i : Nat) (f : ZipEntry) (rest : List ZipEntry)
    (ed : Option Path) (fs : FS) (hdir : f.isDir = false)
    (hmd : isMarkdown (join tempDir f.name) = false) :
    extractLoop tempDir (i + 1) (f :: rest) ed fs = extractLoop tempDir (i + 2) rest ed fs := by
  rw [extractLoop, if_neg (Nat.succ_ne_zero i)]
  unfold isMarkdown at hmd
  simp only [Bool.or_eq_false_iff] at hmd
  simp only [hdir, Bool.false_eq_true, if_false, hmd.1, hmd.2, Bool.not_false, Bool.and_self,
    if_true]

theorem extractLoop_write (tempDir : Path) (i : Nat) (f : ZipEntry) (rest : List ZipEntry)
    (ed : Option Path) (fs : FS) (hdir : f.isDir = false)
    (hmd : isMarkdown (join tempDir f.name) = true) (bytes : List Nat)
    (hdata : f.data = .content bytes) :
    extractLoop tempDir (i + 1) (f :: rest) ed fs =
      match createTrunc fs (join tempDir f.name) with
      | .error e => (.error (.creatingFile (join tempDir f.name) e), fs)
      | .ok fs1 =>
        extractLoop tempDir (i + 2) rest ed ((join tempDir f.name, .file bytes) :: fs1) := by
  rw [extractLoop, if_neg (Nat.succ_ne_zero i)]
  unfold isMarkdown at hmd
  have hcond : (!hasSuffix (join tempDir f.name) ".md" && !hasSuffix (join tempDir f.name) ".mdx")
      = false := by
    cases h1 : hasSuffix (join tempDir f.name) ".md" <;>
      cases h2 : hasSuffix (join tempDir f.name) ".mdx" <;> simp [h1, h2] at hmd ⊢
  simp only [hdir, Bool.false_eq_true, if_false, hcond, hdata]

/-- C8, as amended: how the extraction loop of `copyMarkdownFiles` handles the entries.
The first entry only sets the root: the loop goes on with the other entries as if on its
own, in the same file system, with `extractedDir` the joined path of the first entry, whatever
the type or data of that entry; an archive of one entry leaves the file system as it was; and
a loop that ends without error returns the joined path of the first entry as the root.
Every other entry (index `i + 1`): a directory entry, when no regular file lies on its path,
is created with its missing parents, nothing else changing, and when one does the loop
ends with the error "creating directory"; a file entry whose joined path
does not end in ".md" or ".mdx" is skipped; a file entry whose joined path ends in ".md" or
".mdx", when the directories on the way to it exist and the path is not a directory, has its
bytes written at that path, nothing else changing.  For a name that ends in a proper file
name the joined path ends in ".md" or ".mdx" exactly when the name does. -/
theorem extractLoop_root_entry (tempDir : Path) :
    (∀ first others fs,
      extractLoop tempDir 0 (first :: others) none fs =
        extractLoop tempDir 1 others (some (join tempDir first.name)) fs ∧
      extractLoop tempDir 0 [first] none fs = (.ok (some (join tempDir first.name)), fs) ∧
      ∀ r fs1, extractLoop tempDir 0 (first :: others) none fs = (.ok r, fs1) →
        r = some (join tempDir first.name)) ∧
    (∀ i f rest ed fs,
      (f.isDir = true → (∀ q, q <+: join tempDir f.name → ∀ c, stat fs q ≠ some (.file c)) →
        ∃ fs1, extractLoop tempDir (i + 1) (f :: rest) ed fs =
            extractLoop tempDir (i + 2) rest ed fs1 ∧
          stat fs1 (join tempDir f.name) = some .dir ∧
          ∀ p, stat fs1 p = stat fs p ∨ (stat fs p = none ∧ stat fs1 p = some .dir)) ∧
      (f.isDir = true → (∃ q c, q <+: join tempDir f.name ∧ stat fs q = some (.file c)) →
        extractLoop tempDir (i + 1) (f :: rest) ed fs =
          (.error (.creatingDirectory (join tempDir f.name) .notDir), fs)) ∧
      (f.isDir = false → isMarkdown (join tempDir f.name) = false →
        extractLoop tempDir (i + 1) (f :: rest) ed fs =
          extractLoop tempDir (i + 2) rest ed fs) ∧
      (f.isDir = false → isMarkdown (join tempDir f.name) = true →
        (∀ q, q <+: (join tempDir f.name).dropLast → stat fs q = some .dir) →
        stat fs (join tempDir f.name) ≠ some .dir →
        ∀ bytes, f.data = .content bytes →
        ∃ fs1, extractLoop tempDir (i + 1) (f :: rest) ed fs =
            extractLoop tempDir (i + 2) rest ed fs1 ∧
          stat fs1 (join tempDir f.name) = some (.file bytes) ∧
          ∀ p, p ≠ join tempDir f.name → stat fs1 p = stat fs p)) ∧
    (∀ name, properName (lastPiece name) →
      isMarkdown (join tempDir name) = nameIsMarkdown name) := by
  refine ⟨?_, ?_, ?_⟩
  · intro first others fs
    refine ⟨?_, rfl, ?_⟩
    · rw [extractLoop, if_pos rfl]
    · intro r fs1 h
      rw [extractLoop_zero, extractAll] at h
      split at h
      · cases h
      · cases h
        rfl
  · intro i f rest ed fs
    refine ⟨?_, ?_, ?_, ?_⟩
    · intro hdir hfree
      obtain ⟨fs1, h1⟩ := mkdirAllFrom_ok_of_no_file (join tempDir f.name) [] fs
        (by simpa using hfree)
      have h1' : mkdirAll fs (join tempDir f.name) = .ok fs1 := h1
      refine ⟨fs1, ?_, mkdirAll_ok_stat fs fs1 _ h1', fun p => mkdirAllFrom_stat _ [] fs fs1 h1 p⟩
      rw [extractLoop_directory tempDir i f rest ed fs hdir, h1']
    · rintro hdir ⟨q, c, hq, hs⟩
      rw [extractLoop_directory tempDir i f rest ed fs hdir,
        mkdirAll_error_of_file fs _ q c hq hs]
    · intro hdir hmd
      exact extractLoop_skip tempDir i f rest ed fs hdir hmd
    · intro hdir hmd hdirs hnd bytes hdata
      refine ⟨(join tempDir f.name, .file bytes) :: (join tempDir f.name, .file []) :: fs,
        ?_, ?_, ?_⟩
      · rw [extractLoop_write tempDir i f rest ed fs hdir hmd bytes hdata,
          createTrunc_of_dirs fs _ hdirs hnd]
      · rw [stat_cons]
        have hne : join tempDir f.name ≠ [] := by
          intro h0
          rw [h0] at hnd
          exact hnd (by simp [stat])
        rw [if_neg hne, if_pos rfl]
      · intro p hp
        rw [stat_cons_ne _ _ _ _ (Ne.symm hp), stat_cons_ne _ _ _ _ (Ne.symm hp)]
  · intro name h
    exact isMarkdown_join tempDir name h

/-- Witness of C8 as amended, on `tempFS`: after the root entry of `scenarioArchiveWithDirs`
the entry for the directory `docs-main/api/` is handled by creating that directory. -/
theorem extractLoop_root_entry_witness :
    ∃ fs1, extractLoop sampleTempDir (0 + 1)
          (⟨"docs-main/api/", true, .content []⟩ :: []) (some ["tmp", "openwebui-docs1", "docs-main"])
          tempFS =
        extractLoop sampleTempDir (0 + 2) [] (some ["tmp", "openwebui-docs1", "docs-main"]) fs1 ∧
      stat fs1 (join sampleTempDir "docs-main/api/") = some .dir ∧
      ∀ p, stat fs1 p = stat tempFS p ∨ (stat tempFS p = none ∧ stat fs1 p = some .dir) :=
  ((extractLoop_root_entry sampleTempDir).2.1 0 ⟨"docs-main/api/", true, .content []⟩ []
    (some ["tmp", "openwebui-docs1", "docs-main"]) tempFS).1 rfl
    (by
      intro q hq c hs
      have hq' : q <+: ["tmp", "openwebui-docs1", "docs-main", "api"] := hq
      have hmem := stat_file_mem tempFS q c hs
      simp [tempFS, freshFS] at hmem)

/-- Counterexample to C8 as stated: the name of the file entry `docs-main/d/x.md/.` does not
end in ".md" or ".mdx", so the rule of the specification skips it; the loop tests the joined
path, which is `docs-main/d/x.md`, and writes the bytes of the entry there. -/
theorem extractLoop_writes_dot_entry :
    nameIsMarkdown "docs-main/d/x.md/." = false ∧
      join sampleTempDir "docs-main/d/x.md/." =
        ["tmp", "openwebui-docs1", "docs-main", "d", "x.md"] ∧
      (extractLoop sampleTempDir 0 dotArchive none tempFS).1 =
        .ok (some ["tmp", "openwebui-docs1", "docs-main"]) ∧
      stat (extractLoop sampleTempDir 0 dotArchive none tempFS).2
        ["tmp", "openwebui-docs1", "docs-main", "d", "x.md"] = some (.file [7]) := by
  refine ⟨by decide, by decide, by decide, by decide⟩

/-! ### The suffix filter -/

/-- C4, as amended: the suffix filter of `copyMarkdownFiles`.  First, on a file system with
proper names, every regular file present after source lines 80-149 (the extraction loop and
the copy into `docs_content`, before the clean-up) was there before with the same bytes or has
a path ending in ".md" or ".mdx".  Second, for an archive in which no file entry has a joined
path `filepath.Join(tempDir, name)` ending in ".md" or ".mdx", when neither the extraction
root nor `docs_content` holds a documentation file before the run: every run of `main` sends
no call after those of `initKnowledge` (so `uploadFile` sends nothing), ends with the tally
0/0 if it ends normally, and writes no regular file; the walker lists no file in
`docs_content`; and with enough fuel `main` does end.  Third, the condition on the joined
paths holds when the name of every file entry ends in a proper file name and not in ".md"
or ".mdx". -/
theorem copyMarkdownFiles_suffix_filter (docsDir tempDir : Path) (files : List ZipEntry)
    (fs : FS) :
    (ProperFS fs → ProperPath tempDir → ProperPath docsDir →
      ∀ fuel r fs', copyMarkdownBody fuel docsDir tempDir files fs = some (r, fs') →
        ∀ p c, stat fs' p = some (.file c) →
          stat fs p = some (.file c) ∨ isMarkdown p = true) ∧
    ((∀ f ∈ files, f.isDir = false → isMarkdown (join tempDir f.name) = false) →
      (∀ first ∈ files.head?, NoMarkdownUnder fs (join tempDir first.name)) →
      NoMarkdownUnder fs (join docsDir "docs_content") →
      ∀ srv bytes,
        (∀ fuel r trace fs',
          main fuel ⟨srv, some docsDir, ⟨some tempDir, some bytes, some files⟩⟩ fs =
            some (r, trace, fs') →
          trace = (initKnowledge srv []).2 ∧ (∀ tally, r = .ok tally → tally = ⟨0, 0⟩) ∧
            (∀ p c, stat fs' p = some (.file c) → stat fs p = some (.file c))) ∧
        (∀ fuel fuel' dir fs1 l,
          copyMarkdownFiles fuel docsDir ⟨some tempDir, some bytes, some files⟩ fs =
            some (.ok dir, fs1) →
          listMarkdownFiles fuel' fs1 dir = some (.ok l) → l = []) ∧
        (∃ N result, ∀ fuel, N ≤ fuel →
          main fuel ⟨srv, some docsDir, ⟨some tempDir, some bytes, some files⟩⟩ fs =
            some result)) ∧
    ((∀ f ∈ files, f.isDir = false →
        properName (lastPiece f.name) ∧ nameIsMarkdown f.name = false) →
      ∀ f ∈ files, f.isDir = false → isMarkdown (join tempDir f.name) = false) := by
  refine ⟨?_, ?_, ?_⟩
  · intro hfs htemp hdocs fuel r fs' h
    exact copyMarkdownBody_written fuel docsDir tempDir files fs hfs htemp hdocs r fs' h
  · intro hfiles hroot hcontent srv bytes
    refine ⟨?_, ?_, ?_⟩
    · intro fuel r trace fs' h
      exact main_no_markdown fuel srv docsDir tempDir bytes files fs hfiles hroot hcontent
        r trace fs' h
    · intro fuel fuel' dir fs1 l hc hl
      obtain ⟨hc1, hc2⟩ := copyMarkdownFiles_no_markdown fuel docsDir tempDir bytes files fs
        hfiles hroot (.ok dir) fs1 hc
      have hdir := hc2 dir rfl
      subst hdir
      exact listMarkdownFiles_nil fuel' fs1 _
        (noMarkdownUnder_of_files fs fs1 _ hc1 hcontent) l hl
    · exact main_no_markdown_total srv docsDir tempDir bytes files fs hfiles hroot hcontent
  · intro hnames f hf hdir
    obtain ⟨h1, h2⟩ := hnames f hf hdir
    rw [isMarkdown_join tempDir f.name h1]
    exact h2

theorem noMarkdownUnder_freshFS (root : Path) : NoMarkdownUnder freshFS root := by
  intro p c _ hs
  unfold stat at hs
  split at hs
  · cases hs
  · simp only [freshFS, lookupNode] at hs
    split at hs
    · cases hs
    · split at hs
      · cases hs
      · cases hs

/-- Witness of C4 as amended: with `imagesArchive` on `freshFS` the run of `main` ends
normally with the tally 0/0 after the two calls of `initKnowledge`; and for the extraction of
`scenarioArchiveWithDirs` the file `intro.md` found in `docs_content` has a path ending in
".md". -/
theorem copyMarkdownFiles_suffix_filter_witness :
    main 4 ⟨sampleServer, some ["work"], ⟨some sampleTempDir, some [80, 75],
        some imagesArchive⟩⟩ freshFS =
      some (.ok ⟨0, 0⟩, [listCall, resetCall "k1"], (["work", "docs_content"], .dir) :: freshFS) ∧
    [listCall, resetCall "k1"] = (initKnowledge sampleServer []).2 ∧
    (stat freshFS ["work", "docs_content", "intro.md"] = some (.file [1]) ∨
      isMarkdown ["work", "docs_content", "intro.md"] = true) :=
  ⟨rfl,
    ((((copyMarkdownFiles_suffix_filter ["work"] sampleTempDir imagesArchive freshFS).2.1
      (by decide) (fun _ _ => noMarkdownUnder_freshFS _) (noMarkdownUnder_freshFS _)
      sampleServer [80, 75]).1 4 (.ok ⟨0, 0⟩) [listCall, resetCall "k1"]
      ((["work", "docs_content"], .dir) :: freshFS) rfl).1),
    (copyMarkdownFiles_suffix_filter ["work"] sampleTempDir scenarioArchiveWithDirs freshFS).1
      (by
        intro e he
        simp only [freshFS, List.mem_cons, List.mem_singleton, List.not_mem_nil, or_false] at he
        rcases he with he | he <;> subst he <;> intro c hc <;>
          simp only [List.mem_singleton] at hc <;> subst hc <;>
          exact ⟨by decide, by decide, by decide⟩)
      (by
        intro c hc
        simp only [sampleTempDir, List.mem_cons, List.mem_singleton, List.not_mem_nil,
          or_false] at hc
        rcases hc with hc | hc <;> subst hc <;> exact ⟨by decide, by decide, by decide⟩)
      (by
        intro c hc
        simp only [List.mem_singleton] at hc
        subst hc
        exact ⟨by decide, by decide, by decide⟩)
      4 (.ok ["work", "docs_content"]) extractedFS
      (by decide) ["work", "docs_content", "intro.md"] [1] (by decide)⟩

/-- Counterexample to C4 as stated: `imagesArchive` contains no file ending in ".md" or
".mdx", by its name or by its joined path, yet on `sampleFS`, where `docs_content` still holds `intro.md` from an earlier run,
the walker of `main` lists that file and `uploadFile` is called for it: the run ends with one
successful upload. -/
theorem main_uploads_leftover_file :
    imagesArchive.all (fun f => f.isDir || !nameIsMarkdown f.name) = true ∧
    imagesArchive.all (fun f => f.isDir || !isMarkdown (join sampleTempDir f.name)) = true ∧
    listMarkdownFiles 4 sampleFS ["work", "docs_content"] =
      some (.ok [["work", "docs_content", "intro.md"]]) ∧
    main 4 ⟨sampleServer, some ["work"], ⟨some sampleTempDir, some [80, 75],
        some imagesArchive⟩⟩ sampleFS =
      some (.ok ⟨1, 0⟩,
        [listCall, resetCall "k1",
          uploadCall ["work", "docs_content", "intro.md"] [35, 32, 72, 105],
          getCall "k1", addCall "k1" "new"], sampleFS) := by
  refine ⟨by decide, by decide, by decide, rfl⟩

end DownloadDocs
